import Mathlib

/-! Go-Memo: a shallow embedding of `memo/memo.go`.

The Go package keeps a cache `map[string]*entry` behind a mutex, a
package-level map `invoker`, and two operations, `Get` and `CanCancelGet`.
Below, Go strings are lists of characters, pointers to `entry` are indices
into a heap of allocated entries, channels of type `chan struct{}` on which
nothing is ever sent are one of nil / open / closed, and maps are either
nil or a total lookup function.
-/

namespace GoMemo

/-- Go `string`, as its sequence of characters. The separator `"::"` is
ASCII, so splitting by characters and splitting by bytes agree. -/
abbrev Str := List Char

/-- The separator literal `"::"` of memo.go lines 48 and 74. -/
def sep : Str := [':', ':']

/-- Worker of `strings_Split` for the separator `"::"`: the first piece of
`s` and the list of the pieces after it. The leftmost occurrence of the
separator ends a piece and scanning goes on right after it, as the loop of
Go's `strings.genSplit` does with `Index` and `s = s[m+len(sep):]`. -/
def splitParts : Str → Str × List Str
  | [] => ([], [])
  | [c] => ([c], [])
  | c :: d :: rest =>
      if c = ':' ∧ d = ':' then ([], (splitParts rest).1 :: (splitParts rest).2)
      else (c :: (splitParts (d :: rest)).1, (splitParts (d :: rest)).2)

/-- Go `strings.Split(s, "::")` (memo.go line 74). -/
def strings_Split (s : Str) : List Str := (splitParts s).1 :: (splitParts s).2

/-- Whether `"::"` occurs in `s` (Go `strings.Contains(s, "::")`). -/
def hasSep : Str → Bool
  | [] => false
  | [_] => false
  | c :: d :: rest => (c = ':' ∧ d = ':') || hasSep (d :: rest)

/-- Go `strings.Join([]string{a, b}, "::")` (memo.go line 48). -/
def strings_Join (a b : Str) : Str := a ++ sep ++ b

/-- A Go `chan struct{}` on which nothing is ever sent: the nil channel (the
zero value of the field), a channel made with `make` and still open, or a
closed channel. A receive from it goes through exactly when it is closed. -/
inductive Chan
  | nil
  | opened
  | closed
  deriving DecidableEq, Repr

/-- The struct `result` (memo.go lines 27-30); `none` is Go's `nil`. -/
structure result (V E : Type) where
  value : Option V
  err : Option E
  deriving DecidableEq, Repr

/-- The struct `entry` (memo.go lines 10-14). -/
structure entry (V E : Type) where
  res : result V E
  ready : Chan
  fail : Chan
  deriving DecidableEq, Repr

/-- The type `Func` (memo.go line 25). -/
abbrev Func (V E : Type) := Str → result V E

/-- The struct `Memo` (memo.go lines 19-23). `mu` is `true` while the mutex
is held; `cache` maps a key to the address of its entry, and `none` stands
both for an absent key and for a nil pointer, which `Get` (line 79) and
`CanCancelGet` (line 60) treat alike. -/
structure Memo (V E : Type) where
  f : Func V E
  mu : Bool
  cache : Str → Option Nat

/-- The whole program state: the package variable `invoker` (memo.go line 17,
`none` is the nil map), the heap of allocated entries (a `*entry` is an index
into it), the cache object, and a log of the keys `f` was called with. -/
structure World (V E : Type) where
  invoker : Option (Str → Bool)
  heap : List (entry V E)
  memo : Memo V E
  calls : List Str

/-- Run-time panics of the Go operations used in memo.go. -/
inductive Panic
  | indexOutOfRange
  | nilMapAssign
  | closeNilChan
  | closeClosedChan
  | badPointer
  deriving DecidableEq, Repr

/-- How a call ends: it returns a pair, it panics, it waits for ever when no
other goroutine runs, or the model ran out of fuel. -/
inductive Outcome (V E : Type)
  | ret (r : result V E)
  | panic (p : Panic)
  | blocked
  | outOfFuel
  deriving DecidableEq, Repr

variable {V E : Type}

/-- The pair `nil, nil`; also the zero value of `result`. -/
def nilResult : result V E := { value := none, err := none }

/-- `New` (memo.go lines 32-34). -/
def New (f : Func V E) : Memo V E := { f := f, mu := false, cache := fun _ => none }

/-- The state right after `New(f)` when the package variable `invoker` holds
`inv`. -/
def start (inv : Option (Str → Bool)) (f : Func V E) : World V E :=
  { invoker := inv, heap := [], memo := New f, calls := [] }

/-- The state of a program that has just called `New(f)`: nothing in memo.go
assigns `invoker`, so it still has its zero value, the nil map. -/
def boot (f : Func V E) : World V E := start none f

/-- Go `close(c)`: panics on a nil and on a closed channel. -/
def closeChan : Chan → Except Panic Chan
  | Chan.nil => Except.error Panic.closeNilChan
  | Chan.closed => Except.error Panic.closeClosedChan
  | Chan.opened => Except.ok Chan.closed

/-- Go `m[k] = struct{}{}` on `invoker`: panics on the nil map. -/
def mapAssign (m : Option (Str → Bool)) (k : Str) : Except Panic (Str → Bool) :=
  match m with
  | none => Except.error Panic.nilMapAssign
  | some g => Except.ok (fun x => if x = k then true else g x)

/-- Go `delete(m, k)` on `invoker`: a no-op on the nil map. -/
def mapDelete (m : Option (Str → Bool)) (k : Str) : Option (Str → Bool) :=
  m.map (fun g x => if x = k then false else g x)

/-- `Memo.Get` (memo.go lines 72-105) run with no other goroutine active.
`pick` resolves the `select` of line 97 when both channels are closed
(`true` takes `<-e.ready`). `fuel` bounds the recursion of line 101. -/
def Get (fuel : Nat) (pick : Bool) (w : World V E) (key : Str) : Outcome V E × World V E :=
  match fuel with
  | 0 => (Outcome.outOfFuel, w)
  | fuel + 1 =>
    -- lines 74-76: arr := strings.Split(key, "::"); id := arr[0]; key = arr[1]
    match strings_Split key with
    | id :: key :: _ =>
      -- line 77: memo.mu.Lock()
      if w.memo.mu then (Outcome.blocked, w) else
      let w := { w with memo := { w.memo with mu := true } }
      -- lines 78-79: e := memo.cache[key]; if e == nil
      match w.memo.cache key with
      | none =>
        -- line 83: e = &entry{ready: make(chan struct{})}
        let a := w.heap.length
        let e : entry V E := { res := nilResult, ready := Chan.opened, fail := Chan.nil }
        let w := { w with heap := w.heap ++ [e] }
        -- line 84: memo.cache[key] = e
        let w := { w with memo := { w.memo with cache := Function.update w.memo.cache key (some a) } }
        -- line 86: invoker[id] = struct{}{}
        match mapAssign w.invoker id with
        | Except.error p => (Outcome.panic p, w)
        | Except.ok m =>
          let w := { w with invoker := some m }
          -- line 88: memo.mu.Unlock()
          let w := { w with memo := { w.memo with mu := false } }
          -- line 89: e.res.value, e.res.err = memo.f(key)
          let r := w.memo.f key
          let w := { w with calls := w.calls ++ [key] }
          let e := { e with res := r }
          let w := { w with heap := w.heap.set a e }
          -- line 90: close(e.ready)
          match closeChan e.ready with
          | Except.error p => (Outcome.panic p, w)
          | Except.ok c =>
            let e := { e with ready := c }
            let w := { w with heap := w.heap.set a e }
            -- line 104: return e.res.value, e.res.err
            (Outcome.ret e.res, w)
      | some a =>
        -- line 92: memo.mu.Unlock()
        let w := { w with memo := { w.memo with mu := false } }
        match w.heap[a]? with
        | none => (Outcome.panic Panic.badPointer, w)
        | some e =>
          -- lines 97-102: select on e.ready and e.fail
          match e.ready, e.fail with
          | Chan.closed, Chan.closed =>
            if pick then (Outcome.ret e.res, w) else Get fuel pick w key
          | Chan.closed, _ => (Outcome.ret e.res, w)
          | _, Chan.closed => Get fuel pick w key
          | _, _ => (Outcome.blocked, w)
    | _ => (Outcome.panic Panic.indexOutOfRange, w)

/-- The `case <-done:` branch of `CanCancelGet` (memo.go lines 57-68) for
the untagged key `url` and the call identifier `id`. -/
def cancelBranch (w : World V E) (url id : Str) : Outcome V E × World V E :=
  -- line 58: e, ok := memo.cache[url]
  match w.memo.cache url with
  | none => (Outcome.ret nilResult, w)
  | some a =>
    match w.heap[a]? with
    | none => (Outcome.panic Panic.badPointer, w)
    | some e =>
      -- line 64: close(e.fail)
      match closeChan e.fail with
      | Except.error p => (Outcome.panic p, w)
      | Except.ok c =>
        let w := { w with heap := w.heap.set a { e with fail := c } }
        -- line 65: delete(memo.cache, url)
        let w := { w with memo := { w.memo with cache := Function.update w.memo.cache url none } }
        -- line 66: delete(invoker, id.String())
        let w := { w with invoker := mapDelete w.invoker id }
        (Outcome.ret nilResult, w)

/-- When the `select` of `CanCancelGet` (line 54) takes `<-done`, relative to
the goroutine started at line 49. -/
inductive Race
  | resultFirst
  | doneBeforeGet
  | doneAfterGet
  deriving DecidableEq, Repr

/-- `Memo.CanCancelGet` (memo.go lines 36-70), with `id` the string of the
UUID drawn at line 42, for the three schedules in which the goroutine of
line 49 runs either not at all or all the way before the `select` fires. -/
def CanCancelGet (fuel : Nat) (pick : Bool) (race : Race) (w : World V E) (key id : Str) :
    Outcome V E × World V E :=
  -- line 46: url := key
  let url := key
  -- line 48: key = strings.Join([]string{id.String(), key}, "::")
  let key := strings_Join id key
  match race with
  | Race.doneBeforeGet => cancelBranch w url id
  | Race.resultFirst =>
    -- lines 50-52, 55-56: the result of memo.Get(key) arrives on res
    Get fuel pick w key
  | Race.doneAfterGet => cancelBranch (Get fuel pick w key).2 url id

/-! ## Goroutines: one statement at a time -/

/-- The control point of a goroutine inside `Get` (memo.go lines 72-105) or
`CanCancelGet` (lines 36-70), with the values of the locals it still needs;
`e` is the address held in the local `e`. -/
inductive Pc (V E : Type)
  /-- `Get` was called with `s`; next is line 74. -/
  | getEntry (s : Str)
  /-- Next is line 77, `memo.mu.Lock()`. -/
  | getLock (id key : Str)
  /-- Next is line 78, `e := memo.cache[key]`. -/
  | getLookup (id key : Str)
  /-- Next is line 83, the allocation of the entry. -/
  | getAlloc (id key : Str)
  /-- Next is line 84, `memo.cache[key] = e`. -/
  | getPublish (id key : Str) (e : Nat)
  /-- Next is line 86, `invoker[id] = struct{}{}`. -/
  | getInvoker (id key : Str) (e : Nat)
  /-- Next is line 88, `memo.mu.Unlock()`. -/
  | getUnlockMiss (key : Str) (e : Nat)
  /-- Next is the call `memo.f(key)` of line 89. -/
  | getCall (key : Str) (e : Nat)
  /-- The call of line 89 returned `r`; next is the assignment to `e.res`. -/
  | getStore (key : Str) (e : Nat) (r : result V E)
  /-- Next is line 90, `close(e.ready)`. -/
  | getClose (key : Str) (e : Nat)
  /-- Next is line 104, `return e.res.value, e.res.err`. -/
  | getReturn (key : Str) (e : Nat)
  /-- Next is line 92, `memo.mu.Unlock()`. -/
  | getUnlockHit (key : Str) (e : Nat)
  /-- Next is the `select` of line 97. -/
  | getSelect (key : Str) (e : Nat)
  /-- The call of `Get` whose key is `key` has returned `r`. -/
  | returned (key : Str) (r : result V E)
  /-- `CanCancelGet` was called with `key` and drew the UUID `id`; next are
  lines 46-53. -/
  | ccgEntry (key id : Str)
  /-- Next is the `select` of line 54; `child` is the goroutine of line 49. -/
  | ccgSelect (url id : Str) (child : Nat)
  /-- Next is line 58, `e, ok := memo.cache[url]`. -/
  | ccgLookup (url id : Str)
  /-- Next is line 64, `close(e.fail)`. -/
  | ccgClose (url id : Str) (e : Nat)
  /-- Next is line 65, `delete(memo.cache, url)`. -/
  | ccgDeleteCache (url id : Str)
  /-- Next is line 66, `delete(invoker, id.String())`. -/
  | ccgDeleteInvoker (id : Str)
  /-- The call of `CanCancelGet` has returned `r`. -/
  | ccgReturned (r : result V E)

/-- What one statement of a goroutine does. -/
inductive StepOut (V E : Type)
  /-- The goroutine moved on. -/
  | next (pc : Pc V E) (w : World V E)
  /-- The goroutine moved on and started another one. -/
  | spawn (pc child : Pc V E) (w : World V E)
  /-- The statement panicked. -/
  | panic (p : Panic)
  /-- The goroutine cannot move now: it waits, or it is over. -/
  | stuck

/-- One statement of a goroutine at `pc`, in the world `w`, among the
goroutines `ts`. `pick` resolves a `select` with two ready cases: `true`
takes the first one in the source; at line 54, `false` is the arrival of
`done`, which the caller may close at any time. -/
def stepPc (ts : List (Pc V E)) (pick : Bool) (w : World V E) : Pc V E → StepOut V E
  | Pc.getEntry s =>
    match strings_Split s with
    | id :: key :: _ => StepOut.next (Pc.getLock id key) w
    | _ => StepOut.panic Panic.indexOutOfRange
  | Pc.getLock id key =>
    if w.memo.mu then StepOut.stuck
    else StepOut.next (Pc.getLookup id key) { w with memo := { w.memo with mu := true } }
  | Pc.getLookup id key =>
    match w.memo.cache key with
    | none => StepOut.next (Pc.getAlloc id key) w
    | some a => StepOut.next (Pc.getUnlockHit key a) w
  | Pc.getAlloc id key =>
    StepOut.next (Pc.getPublish id key w.heap.length)
      { w with heap := w.heap ++ [{ res := nilResult, ready := Chan.opened, fail := Chan.nil }] }
  | Pc.getPublish id key e =>
    StepOut.next (Pc.getInvoker id key e)
      { w with memo := { w.memo with cache := Function.update w.memo.cache key (some e) } }
  | Pc.getInvoker id key e =>
    match mapAssign w.invoker id with
    | Except.error p => StepOut.panic p
    | Except.ok m => StepOut.next (Pc.getUnlockMiss key e) { w with invoker := some m }
  | Pc.getUnlockMiss key e =>
    StepOut.next (Pc.getCall key e) { w with memo := { w.memo with mu := false } }
  | Pc.getCall key e =>
    StepOut.next (Pc.getStore key e (w.memo.f key)) { w with calls := w.calls ++ [key] }
  | Pc.getStore key e r =>
    match w.heap[e]? with
    | none => StepOut.panic Panic.badPointer
    | some old =>
      StepOut.next (Pc.getClose key e) { w with heap := w.heap.set e { old with res := r } }
  | Pc.getClose key e =>
    match w.heap[e]? with
    | none => StepOut.panic Panic.badPointer
    | some old =>
      match closeChan old.ready with
      | Except.error p => StepOut.panic p
      | Except.ok c =>
        StepOut.next (Pc.getReturn key e) { w with heap := w.heap.set e { old with ready := c } }
  | Pc.getReturn key e =>
    match w.heap[e]? with
    | none => StepOut.panic Panic.badPointer
    | some old => StepOut.next (Pc.returned key old.res) w
  | Pc.getUnlockHit key e =>
    StepOut.next (Pc.getSelect key e) { w with memo := { w.memo with mu := false } }
  | Pc.getSelect key e =>
    match w.heap[e]? with
    | none => StepOut.panic Panic.badPointer
    | some old =>
      match old.ready, old.fail with
      | Chan.closed, Chan.closed =>
        if pick then StepOut.next (Pc.returned key old.res) w
        else StepOut.next (Pc.getEntry key) w
      | Chan.closed, _ => StepOut.next (Pc.returned key old.res) w
      | _, Chan.closed => StepOut.next (Pc.getEntry key) w
      | _, _ => StepOut.stuck
  | Pc.returned _ _ => StepOut.stuck
  | Pc.ccgEntry key id =>
    StepOut.spawn (Pc.ccgSelect key id ts.length) (Pc.getEntry (strings_Join id key)) w
  | Pc.ccgSelect url id child =>
    if pick then
      match ts[child]? with
      | some (Pc.returned _ r) => StepOut.next (Pc.ccgReturned r) w
      | _ => StepOut.stuck
    else StepOut.next (Pc.ccgLookup url id) w
  | Pc.ccgLookup url id =>
    match w.memo.cache url with
    | none => StepOut.next (Pc.ccgReturned nilResult) w
    | some a => StepOut.next (Pc.ccgClose url id a) w
  | Pc.ccgClose url id e =>
    match w.heap[e]? with
    | none => StepOut.panic Panic.badPointer
    | some old =>
      match closeChan old.fail with
      | Except.error p => StepOut.panic p
      | Except.ok c =>
        StepOut.next (Pc.ccgDeleteCache url id) { w with heap := w.heap.set e { old with fail := c } }
  | Pc.ccgDeleteCache url id =>
    StepOut.next (Pc.ccgDeleteInvoker id)
      { w with memo := { w.memo with cache := Function.update w.memo.cache url none } }
  | Pc.ccgDeleteInvoker id =>
    StepOut.next (Pc.ccgReturned nilResult) { w with invoker := mapDelete w.invoker id }
  | Pc.ccgReturned _ => StepOut.stuck

/-- The running program: the shared state, the goroutines, and the panic
that ended it, if one did (an unrecovered panic ends a Go program). -/
structure Sys (V E : Type) where
  world : World V E
  threads : List (Pc V E)
  crashed : Option Panic

/-- The program right after `New(f)`, before any call, when `invoker` holds
`inv`. -/
def Sys.start (inv : Option (Str → Bool)) (f : Func V E) : Sys V E :=
  { world := GoMemo.start inv f, threads := [], crashed := none }

/-- The program right after `New(f)`, before any call. -/
def Sys.boot (f : Func V E) : Sys V E := Sys.start none f

/-- A caller starts a call in a goroutine of its own. -/
def Sys.call (s : Sys V E) (pc : Pc V E) : Sys V E := { s with threads := s.threads ++ [pc] }

/-- Goroutine `i` runs its next statement; `none` when it cannot. -/
def Sys.step (s : Sys V E) (i : Nat) (pick : Bool) : Option (Sys V E) :=
  match s.crashed with
  | some _ => none
  | none =>
    match s.threads[i]? with
    | none => none
    | some pc =>
      match stepPc s.threads pick s.world pc with
      | StepOut.next pc' w => some { world := w, threads := s.threads.set i pc', crashed := none }
      | StepOut.spawn pc' child w =>
        some { world := w, threads := s.threads.set i pc' ++ [child], crashed := none }
      | StepOut.panic p => some { s with crashed := some p }
      | StepOut.stuck => none

/-- One transition of the program: a caller issues `Get` or `CanCancelGet`
with any arguments, or some goroutine runs its next statement. -/
inductive Next : Sys V E → Sys V E → Prop
  | callGet (s : Sys V E) (key : Str) : s.crashed = none → Next s (s.call (Pc.getEntry key))
  | callCanCancelGet (s : Sys V E) (key id : Str) :
      s.crashed = none → Next s (s.call (Pc.ccgEntry key id))
  | step (s s' : Sys V E) (i : Nat) (pick : Bool) : s.step i pick = some s' → Next s s'

/-- The states reached from `s0` by any number of transitions, in any
interleaving. -/
def Reach (s0 s : Sys V E) : Prop := Relation.ReflTransGen Next s0 s

/-- Run a schedule: each item names the goroutine that runs its next
statement and the `pick` it runs with; an item that cannot run is skipped. -/
def Sys.run (s : Sys V E) : List (Nat × Bool) → Sys V E
  | [] => s
  | (i, pick) :: rest => ((s.step i pick).getD s).run rest

/-! ## Predicates on the running program -/

/-- No entry of the heap has a `fail` channel: line 83 makes `ready` only. -/
def FailNil (w : World V E) : Prop := ∀ e ∈ w.heap, e.fail = Chan.nil

/-- The control points between `memo.mu.Lock()` (line 77) and the matching
`memo.mu.Unlock()` (line 88 or 92). -/
def inCrit : Pc V E → Bool
  | Pc.getLookup _ _ => true
  | Pc.getAlloc _ _ => true
  | Pc.getPublish _ _ _ => true
  | Pc.getInvoker _ _ _ => true
  | Pc.getUnlockMiss _ _ => true
  | Pc.getUnlockHit _ _ => true
  | _ => false

/-- The key of the miss branch a goroutine is in, before it has published
its entry at line 84. -/
def missKey : Pc V E → Option Str
  | Pc.getAlloc _ key => some key
  | Pc.getPublish _ key _ => some key
  | _ => none

/-- The control points of the cancel branch after `close(e.fail)`. -/
def deleting : Pc V E → Bool
  | Pc.ccgDeleteCache _ _ => true
  | Pc.ccgDeleteInvoker _ => true
  | _ => false

/-- What one successful statement of a goroutine keeps or changes. -/
def StepFacts (w w' : World V E) (pc pc' : Pc V E) : Prop :=
  FailNil w' ∧ deleting pc' = false ∧
    (∀ k, missKey pc' = some k → w'.memo.cache k = none) ∧
    (inCrit pc' = true → w'.memo.mu = true) ∧
    (inCrit pc' = true → inCrit pc = false → w.memo.mu = false) ∧
    (w.memo.mu = true → w'.memo.mu = false → inCrit pc = true) ∧
    (w'.memo.cache = w.memo.cache ∨ inCrit pc = true) ∧
    (∀ k a, w.memo.cache k = some a → w'.memo.cache k = some a) ∧
    (∀ (a : Nat) (e : entry V E), w.heap[a]? = some e → e.ready = Chan.closed →
      ∃ e', w'.heap[a]? = some e' ∧ e'.ready = Chan.closed) ∧
    w'.memo.f = w.memo.f

/-- A control point outside the critical section and outside the deleting
tail of the cancel branch. -/
def plain (pc : Pc V E) : Prop := inCrit pc = false ∧ deleting pc = false ∧ missKey pc = none

/-- The invariant of the running program: no entry has a `fail` channel, no
goroutine is past line 64, a goroutine between lines 78 and 92 holds the
mutex and is the only one there, and a goroutine about to publish an entry
for a key saw no entry for it. -/
structure Inv (w : World V E) (ts : List (Pc V E)) : Prop where
  failNil : FailNil w
  noDelete : ∀ (j : Nat) (pc : Pc V E), ts[j]? = some pc → deleting pc = false
  miss : ∀ (j : Nat) (pc : Pc V E), ts[j]? = some pc →
    ∀ k, missKey pc = some k → w.memo.cache k = none
  held : ∀ (j : Nat) (pc : Pc V E), ts[j]? = some pc → inCrit pc = true → w.memo.mu = true
  excl : ∀ (i j : Nat) (pc pc' : Pc V E), ts[i]? = some pc → ts[j]? = some pc' →
    inCrit pc = true → inCrit pc' = true → i = j

/-- A control point a goroutine can be at before line 86 has succeeded. -/
def early : Pc V E → Bool
  | Pc.getUnlockMiss _ _ => false
  | Pc.getCall _ _ => false
  | Pc.getStore _ _ _ => false
  | Pc.getClose _ _ => false
  | Pc.getReturn _ _ => false
  | Pc.returned _ _ => false
  | _ => true

/-- The state of a program whose `invoker` is still the nil map: `f` was
never called and every entry is as line 83 made it. -/
def Fresh (w : World V E) : Prop :=
  w.invoker = none ∧ w.calls = [] ∧ ∀ e ∈ w.heap, e.ready = Chan.opened ∧ e.fail = Chan.nil

/-- The invariant of a program started with `invoker` nil. -/
def FreshSys (s : Sys V E) : Prop := Fresh s.world ∧ ∀ q ∈ s.threads, early q = true

/-- The address a goroutine holds in its local `e`. -/
def ptr : Pc V E → Option Nat
  | Pc.getPublish _ _ e => some e
  | Pc.getInvoker _ _ e => some e
  | Pc.getUnlockMiss _ e => some e
  | Pc.getCall _ e => some e
  | Pc.getStore _ e _ => some e
  | Pc.getClose _ e => some e
  | Pc.getReturn _ e => some e
  | Pc.getUnlockHit _ e => some e
  | Pc.getSelect _ e => some e
  | Pc.ccgClose _ _ e => some e
  | _ => none

/-- The address of the entry a goroutine made at line 83 and has not yet
completed at line 90. -/
def own : Pc V E → Option Nat
  | Pc.getPublish _ _ e => some e
  | Pc.getInvoker _ _ e => some e
  | Pc.getUnlockMiss _ e => some e
  | Pc.getCall _ e => some e
  | Pc.getStore _ e _ => some e
  | Pc.getClose _ e => some e
  | _ => none

/-- What one successful statement of a goroutine does to the heap. -/
def HeapFacts (w w' : World V E) (pc pc' : Pc V E) : Prop :=
  (∀ e, ptr pc' = some e → e < w'.heap.length) ∧
    (∀ k a, w'.memo.cache k = some a → a < w'.heap.length) ∧
    w.heap.length ≤ w'.heap.length ∧
    (∀ e, own pc' = some e → own pc = some e ∨ e = w.heap.length) ∧
    (∀ (a : Nat) (x : entry V E), w.heap[a]? = some x → own pc = some a ∨ w'.heap[a]? = some x) ∧
    (∀ (e : Nat) (x : entry V E), own pc' = some e → w'.heap[e]? = some x →
      x.ready = Chan.opened)

/-- The invariant of the heap: every address held by a goroutine or by the
cache is allocated, and an entry not yet completed belongs to exactly one
goroutine, the one that made it. -/
structure Own (w : World V E) (ts : List (Pc V E)) : Prop where
  ptrOk : ∀ (j : Nat) (pc : Pc V E) (e : Nat), ts[j]? = some pc → ptr pc = some e →
    e < w.heap.length
  cacheOk : ∀ (k : Str) (a : Nat), w.memo.cache k = some a → a < w.heap.length
  ownOpen : ∀ (j : Nat) (pc : Pc V E) (e : Nat) (x : entry V E), ts[j]? = some pc →
    own pc = some e → w.heap[e]? = some x → x.ready = Chan.opened
  ownDistinct : ∀ (i j : Nat) (pc pc' : Pc V E) (e : Nat), ts[i]? = some pc →
    ts[j]? = some pc' → own pc = some e → own pc' = some e → i = j

/-- The two invariants together. -/
def Good (s : Sys V E) : Prop := Inv s.world s.threads ∧ Own s.world s.threads

/-- The key and the address of a goroutine that has published its entry at
line 84 and has not yet called `f` at line 89. -/
def precall : Pc V E → Option (Str × Nat)
  | Pc.getInvoker _ key e => some (key, e)
  | Pc.getUnlockMiss key e => some (key, e)
  | Pc.getCall key e => some (key, e)
  | _ => none

/-- What one successful statement does to the cache and to the log of the
calls of `f`. -/
def OnceFacts (w w' : World V E) (pc pc' : Pc V E) : Prop :=
  (w'.calls = w.calls ∧ w'.memo.cache = w.memo.cache ∧
      (precall pc' = none ∨ precall pc' = precall pc)) ∨
    (∃ id key e, pc = Pc.getPublish id key e ∧ precall pc' = some (key, e) ∧
      w'.calls = w.calls ∧ w'.memo.cache = Function.update w.memo.cache key (some e)) ∨
    (∃ key e, pc = Pc.getCall key e ∧ precall pc' = none ∧
      w'.calls = w.calls ++ [key] ∧ w'.memo.cache = w.memo.cache) ∨
    deleting pc = true

/-- The invariant behind single-flight: a key is in the log at most once, a
key in the log has an entry, and a goroutine between lines 84 and 89 is the
one whose entry the cache holds for its key, which is not yet in the log. -/
structure Once (w : World V E) (ts : List (Pc V E)) : Prop where
  nodup : w.calls.Nodup
  logged : ∀ k ∈ w.calls, w.memo.cache k ≠ none
  pending : ∀ (j : Nat) (pc : Pc V E) (k : Str) (e : Nat), ts[j]? = some pc →
    precall pc = some (k, e) → w.memo.cache k = some e ∧ k ∉ w.calls

/-- The key and the address of a goroutine that holds the entry of its key:
the one it published at line 84 or the one it found at line 78. -/
def linked : Pc V E → Option (Str × Nat)
  | Pc.getInvoker _ key e => some (key, e)
  | Pc.getUnlockMiss key e => some (key, e)
  | Pc.getCall key e => some (key, e)
  | Pc.getStore key e _ => some (key, e)
  | Pc.getClose key e => some (key, e)
  | Pc.getReturn key e => some (key, e)
  | Pc.getUnlockHit key e => some (key, e)
  | Pc.getSelect key e => some (key, e)
  | _ => none

/-- What a goroutine at `pc` knows in the world `w` about the entry it
holds, when the computation is `f`. -/
structure Knows (f : Func V E) (w : World V E) (pc : Pc V E) : Prop where
  link : ∀ key e, linked pc = some (key, e) → w.memo.cache key = some e
  unpublished : ∀ id key e, pc = Pc.getPublish id key e → ∀ k, w.memo.cache k ≠ some e
  computed : ∀ key e r, pc = Pc.getStore key e r → r = f key
  written : ∀ key e (x : entry V E), pc = Pc.getClose key e → w.heap[e]? = some x →
    x.res = f key
  closed : ∀ key e (x : entry V E), pc = Pc.getReturn key e → w.heap[e]? = some x →
    x.ready = Chan.closed
  returned : ∀ k r, pc = Pc.returned k r → r = f k

/-- What the world knows: the computation is `f`, no entry is cached under
two keys, and a completed entry cached under `k` holds `f k`. -/
structure Sound (f : Func V E) (w : World V E) : Prop where
  fconst : w.memo.f = f
  inj : ∀ k k' a, w.memo.cache k = some a → w.memo.cache k' = some a → k = k'
  done : ∀ k a (x : entry V E), w.memo.cache k = some a → w.heap[a]? = some x →
    x.ready = Chan.closed → x.res = f k

/-- The invariant behind the returned values: the world is sound and every
goroutine knows its part. -/
structure Stored (f : Func V E) (w : World V E) (ts : List (Pc V E)) : Prop where
  sound : Sound f w
  knows : ∀ (j : Nat) (pc : Pc V E), ts[j]? = some pc → Knows f w pc

/-- One goroutine run on its own, statement by statement, until it returns,
panics or waits. -/
def alone (pick : Bool) : Nat → World V E → Pc V E → Outcome V E × World V E
  | 0, w, _ => (Outcome.outOfFuel, w)
  | n + 1, w, pc =>
    match pc with
    | Pc.returned _ r => (Outcome.ret r, w)
    | Pc.ccgReturned r => (Outcome.ret r, w)
    | _ =>
      match stepPc [pc] pick w pc with
      | StepOut.next pc' w' => alone pick n w' pc'
      | StepOut.spawn _ _ _ => (Outcome.blocked, w)
      | StepOut.panic p => (Outcome.panic p, w)
      | StepOut.stuck => (Outcome.blocked, w)

/-! ## Concrete programs -/

/-- A computation that succeeds: the length of the key. -/
def f0 : Func Nat Nat := fun k => { value := some k.length, err := none }

/-- A computation that fails: `(nil, err)` for every key. -/
def fErr : Func Nat Nat := fun _ => { value := none, err := some 1 }

/-- The package variable `invoker` once some code has run
`invoker = make(map[string]struct{})`. -/
def emptyInvoker : Option (Str → Bool) := some (fun _ => false)

/-- The string of a UUID, as `id.String()` gives it at line 48. -/
def uuid0 : Str := "6ba7b810-9dad-11d1-80b4-00c04fd430c8".toList

/-- A key that contains the separator: the URL of the IPv6 loopback host. -/
def url0 : Str := "http://[::1]/".toList

/-- From `New(f0)`: one call `Get("id::k")` run until it stops. -/
def demoCrash : Sys Nat Nat :=
  ((Sys.boot f0).call (Pc.getEntry "id::k".toList)).run (List.replicate 6 (0, true))

/-- From `New(fErr)` with `invoker` made: one call `Get("id::k")` run to its
return. -/
def demoDone : Sys Nat Nat :=
  ((Sys.start emptyInvoker fErr).call (Pc.getEntry "id::k".toList)).run
    (List.replicate 11 (0, true))

/-- After `demoDone`: a call `CanCancelGet("k", done)` whose `done` arrives at
once, run until it stops. -/
def demoCancel : Sys Nat Nat :=
  (demoDone.call (Pc.ccgEntry "k".toList uuid0)).run [(1, false), (1, false), (1, false), (1, false)]

/-- From `New(f0)`: one call `CanCancelGet("k", done)`; its goroutine runs up
to line 84, then `done` arrives and the cancel branch runs until it stops. -/
def demoCancelFresh : Sys Nat Nat :=
  ((Sys.boot f0).call (Pc.ccgEntry "k".toList uuid0)).run
    [(0, true), (1, true), (1, true), (1, true), (1, true), (1, true)]

/-- The world `Get("id::k")` leaves behind with `fErr` and `invoker` made. -/
def wDone : World Nat Nat := (Get 1 true (start emptyInvoker fErr) "id::k".toList).2

/-- The completed entry of `"k"` in `wDone` and `demoDone`. -/
def eDone : entry Nat Nat :=
  { res := { value := none, err := some 1 }, ready := Chan.closed, fail := Chan.nil }

/-- With `invoker` made: `Get("a::k")` runs up to the call of `f` at line 89,
then `Get("b::k")` finds the entry of `"k"` and reaches the `select` of
line 97. -/
def demoWaiter : Sys Nat Nat :=
  (((Sys.start emptyInvoker f0).call (Pc.getEntry "a::k".toList)).call
      (Pc.getEntry "b::k".toList)).run
    (List.replicate 7 (0, true) ++ List.replicate 4 (1, true))

/-! ## Splitting and joining on `"::"` -/

theorem hasSep_cons_cons (c d : Char) (rest : Str) :
    hasSep (c :: d :: rest) = (decide (c = ':' ∧ d = ':') || hasSep (d :: rest)) := by
  simp [hasSep]

/-- A string without `"::"` is its own single piece. -/
theorem splitParts_of_noSep : ∀ s : Str, hasSep s = false → splitParts s = (s, [])
  | [], _ => rfl
  | [_], _ => rfl
  | c :: d :: rest, h => by
    rw [hasSep_cons_cons] at h
    simp only [Bool.or_eq_false_iff, decide_eq_false_iff_not] at h
    have ih := splitParts_of_noSep (d :: rest) h.2
    simp [splitParts, h.1, ih]

theorem strings_Split_of_noSep (s : Str) (h : hasSep s = false) : strings_Split s = [s] := by
  simp [strings_Split, splitParts_of_noSep s h]

/-- Splitting `id + "::" + k` when `id` has no colon at all (as the string of
a UUID): the first piece is `id`, the others are the pieces of `k`. -/
theorem strings_Split_Join (id k : Str) (h : ':' ∉ id) :
    strings_Split (strings_Join id k) = id :: strings_Split k := by
  induction id with
  | nil => simp [strings_Split, strings_Join, sep, splitParts]
  | cons c t ih =>
    have hc : c ≠ ':' := fun e => h (by simp [e])
    have ht : ':' ∉ t := fun e => h (by simp [e])
    have ih := ih ht
    cases t with
    | nil =>
      simp only [strings_Split, strings_Join, sep, List.nil_append, List.cons_append,
        List.cons.injEq] at ih ⊢
      simp [splitParts, hc]
    | cons d u =>
      simp only [strings_Split, strings_Join, sep, List.cons_append, List.cons.injEq,
        List.append_assoc, List.nil_append] at ih ⊢
      simp [splitParts, hc, ih.1, ih.2]

/-- The round trip of the tag when neither part gets in the way: for `id`
without a colon and `k` without `"::"`, the tagged string splits back into
`id` and `k`. -/
theorem strings_Split_Join_noSep (id k : Str) (hid : ':' ∉ id) (hk : hasSep k = false) :
    strings_Split (strings_Join id k) = [id, k] := by
  rw [strings_Split_Join id k hid, strings_Split_of_noSep k hk]

/-- No piece of a split contains the separator. -/
theorem splitParts_pieces : ∀ s : Str,
    hasSep (splitParts s).1 = false ∧ (∀ q ∈ (splitParts s).2, hasSep q = false) ∧
      (∀ x, (splitParts s).1.head? = some x → s.head? = some x)
  | [] => by simp [splitParts, hasSep]
  | [_] => by simp [splitParts, hasSep]
  | c :: d :: rest => by
    by_cases hc : c = ':' ∧ d = ':'
    · have ih := splitParts_pieces rest
      simp only [splitParts, hc, and_self, if_true]
      refine ⟨by simp [hasSep], ?_, by simp⟩
      intro q hq
      rcases List.mem_cons.1 hq with h | h
      · rw [h]; exact ih.1
      · exact ih.2.1 q h
    · have ih := splitParts_pieces (d :: rest)
      simp only [splitParts, hc, if_false]
      refine ⟨?_, ih.2.1, by simp⟩
      cases hp : (splitParts (d :: rest)).1 with
      | nil => simp [hasSep]
      | cons x p =>
        have hx : x = d := by
          have := ih.2.2 x (by simp [hp])
          simpa using this.symm
        rw [hasSep_cons_cons, ← hp, ih.1, hx]
        simp only [Bool.or_false, decide_eq_false_iff_not]
        intro h
        exact hc ⟨h.1, h.2⟩

theorem strings_Split_piece_noSep (s q : Str) (h : q ∈ strings_Split s) : hasSep q = false := by
  rcases List.mem_cons.1 h with h | h
  · rw [h]; exact (splitParts_pieces s).1
  · exact (splitParts_pieces s).2.1 q h

/-! ## `Get` run alone -/

theorem set_length_append {α : Type} (l : List α) (e e' : α) :
    (l ++ [e]).set l.length e' = l ++ [e'] := by
  induction l with
  | nil => rfl
  | cons x t ih => simp [ih]

theorem memo_mu_eta (w : World V E) (h : w.memo.mu = false) :
    ({ w with memo := { w.memo with mu := false } } : World V E) = w := by
  cases w with
  | mk i hp m c =>
    cases m with
    | mk f mu ca =>
      simp only at h
      subst h
      rfl

/-- A key without `"::"`: line 76 indexes past the end of `arr`. -/
theorem Get_noSep (fuel : Nat) (pick : Bool) (w : World V E) (key : Str)
    (h : hasSep key = false) :
    Get (fuel + 1) pick w key = (Outcome.panic Panic.indexOutOfRange, w) := by
  simp [Get, strings_Split_of_noSep key h]

/-- The miss branch when `invoker` is the nil map: line 86 panics, after the
entry was published and with the mutex held. -/
theorem Get_miss_nilInvoker (fuel : Nat) (pick : Bool) (w : World V E) (s id k : Str)
    (rest : List Str) (hs : strings_Split s = id :: k :: rest) (hmu : w.memo.mu = false)
    (hc : w.memo.cache k = none) (hi : w.invoker = none) :
    Get (fuel + 1) pick w s =
      (Outcome.panic Panic.nilMapAssign,
        { invoker := none
          heap := w.heap ++ [{ res := nilResult, ready := Chan.opened, fail := Chan.nil }]
          memo := { f := w.memo.f, mu := true,
                    cache := Function.update w.memo.cache k (some w.heap.length) }
          calls := w.calls }) := by
  simp [Get, hs, hmu, hc, hi, mapAssign]

/-- The miss branch when `invoker` is a map: `f` runs once, the entry is
published and completed, the identifier is recorded. -/
theorem Get_miss_okInvoker (fuel : Nat) (pick : Bool) (w : World V E) (s id k : Str)
    (rest : List Str) (m : Str → Bool) (hs : strings_Split s = id :: k :: rest)
    (hmu : w.memo.mu = false) (hc : w.memo.cache k = none) (hi : w.invoker = some m) :
    Get (fuel + 1) pick w s =
      (Outcome.ret (w.memo.f k),
        { invoker := some (fun x => if x = id then true else m x)
          heap := w.heap ++ [{ res := w.memo.f k, ready := Chan.closed, fail := Chan.nil }]
          memo := { f := w.memo.f, mu := false,
                    cache := Function.update w.memo.cache k (some w.heap.length) }
          calls := w.calls ++ [k] }) := by
  simp [Get, hs, hmu, hc, hi, mapAssign, closeChan, set_length_append]

/-- The hit branch on a completed entry whose `fail` is not closed. -/
theorem Get_hit_ready (fuel : Nat) (pick : Bool) (w : World V E) (s id k : Str)
    (rest : List Str) (a : Nat) (e : entry V E) (hs : strings_Split s = id :: k :: rest)
    (hmu : w.memo.mu = false) (hc : w.memo.cache k = some a) (he : w.heap[a]? = some e)
    (hr : e.ready = Chan.closed) (hf : e.fail ≠ Chan.closed) :
    Get (fuel + 1) pick w s = (Outcome.ret e.res, w) := by
  have hw := memo_mu_eta w hmu
  cases hfe : e.fail <;> simp [Get, hs, hmu, hc, he, hr, hfe, hw] at hf ⊢

/-- The hit branch on an entry whose `fail` alone is closed: line 101 calls
`Get` with the untagged key, and that call panics at line 76. -/
theorem Get_hit_fail (fuel : Nat) (pick : Bool) (w : World V E) (s id k : Str)
    (rest : List Str) (a : Nat) (e : entry V E) (hs : strings_Split s = id :: k :: rest)
    (hmu : w.memo.mu = false) (hc : w.memo.cache k = some a) (he : w.heap[a]? = some e)
    (hr : e.ready ≠ Chan.closed) (hf : e.fail = Chan.closed) :
    Get (fuel + 2) pick w s = (Outcome.panic Panic.indexOutOfRange, w) := by
  have hw := memo_mu_eta w hmu
  have hk : hasSep k = false := strings_Split_piece_noSep s k (by simp [hs])
  have hg := fun w' : World V E => Get_noSep fuel pick w' k hk
  rw [Get]
  cases hre : e.ready <;> simp [hs, hmu, hc, he, hre, hf, hw, hg] at hr ⊢

/-! ## One goroutine on its own -/

theorem Get_fuel (fuel : Nat) (pick : Bool) (w : World V E) (s : Str) :
    Get (fuel + 2) pick w s = Get 2 pick w s := by
  rcases hsp : strings_Split s with _ | ⟨id, _ | ⟨k, rest⟩⟩
  · simp [Get, hsp]
  · simp [Get, hsp]
  · have hk : hasSep k = false := strings_Split_piece_noSep s k (by simp [hsp])
    have hg := fun (n : Nat) (w' : World V E) => Get_noSep n pick w' k hk
    rw [Get, Get]
    simp only [hsp, hg]

theorem alone_eq_Get (pick : Bool) (w : World V E) (s : Str) :
    alone pick 12 w (Pc.getEntry s) = Get 2 pick w s := by
  rcases hsp : strings_Split s with _ | ⟨id, _ | ⟨k, rest⟩⟩
  · simp [Get, hsp, alone, stepPc]
  · simp [Get, hsp, alone, stepPc]
  · have hk : hasSep k = false := strings_Split_piece_noSep s k (by simp [hsp])
    have hg := fun (n : Nat) (w' : World V E) => Get_noSep n pick w' k hk
    have hk' := strings_Split_of_noSep k hk
    rw [Get]
    simp only [hsp, hg]
    cases hmu : w.memo.mu with
    | true => simp [alone, stepPc, hsp, hmu]
    | false =>
      cases hc : w.memo.cache k with
      | none =>
        cases hi : w.invoker with
        | none => simp [alone, stepPc, hsp, hmu, hc, hi, mapAssign]
        | some m =>
          simp [alone, stepPc, hsp, hmu, hc, hi, mapAssign, closeChan, set_length_append]
      | some a =>
        cases he : w.heap[a]? with
        | none => simp [alone, stepPc, hsp, hmu, hc, he]
        | some e =>
          cases hr : e.ready <;> cases hf : e.fail <;> cases pick <;>
            simp [alone, stepPc, hsp, hmu, hc, he, hr, hf, hk']

/-- The cancel branch, statement by statement, is `cancelBranch`. -/
theorem alone_eq_cancelBranch (pick : Bool) (w : World V E) (url id : Str) :
    alone pick 5 w (Pc.ccgLookup url id) = cancelBranch w url id := by
  cases hc : w.memo.cache url with
  | none => simp [alone, stepPc, cancelBranch, hc]
  | some a =>
    cases he : w.heap[a]? with
    | none => simp [alone, stepPc, cancelBranch, hc, he]
    | some e => cases hf : e.fail <;> simp [alone, stepPc, cancelBranch, hc, he, hf, closeChan]

/-! ## Invariants of the running program -/

theorem failNil_get (w : World V E) (a : Nat) (x : entry V E) (h : FailNil w)
    (hx : w.heap[a]? = some x) : x.fail = Chan.nil :=
  h x (List.getElem?_mem hx)

theorem closeChan_ok (c c' : Chan) (h : closeChan c = Except.ok c') :
    c = Chan.opened ∧ c' = Chan.closed := by
  cases c <;> simp [closeChan] at h
  exact ⟨rfl, h.symm⟩

theorem ready_append (l : List (entry V E)) (x : entry V E) (a : Nat) (e : entry V E)
    (h : l[a]? = some e) (hr : e.ready = Chan.closed) :
    ∃ e', (l ++ [x])[a]? = some e' ∧ e'.ready = Chan.closed := by
  have hlt : a < l.length := (List.getElem?_eq_some.1 h).1
  exact ⟨e, by rw [List.getElem?_append_left hlt]; exact h, hr⟩

theorem ready_set_of_get (l : List (entry V E)) (i : Nat) (old x : entry V E)
    (hold : l[i]? = some old) (hx : old.ready = Chan.closed → x.ready = Chan.closed)
    (a : Nat) (e : entry V E) (h : l[a]? = some e) (hr : e.ready = Chan.closed) :
    ∃ e', (l.set i x)[a]? = some e' ∧ e'.ready = Chan.closed := by
  by_cases hia : i = a
  · subst hia
    have hlt : i < l.length := (List.getElem?_eq_some.1 h).1
    have : old = e := by rw [hold] at h; exact Option.some.inj h
    exact ⟨x, by simp [hlt], hx (this ▸ hr)⟩
  · exact ⟨e, by simp [List.getElem?_set_ne hia, h], hr⟩

theorem failNil_set_of_get (l : List (entry V E)) (i : Nat) (old x : entry V E)
    (hl : ∀ e ∈ l, e.fail = Chan.nil) (hold : l[i]? = some old) (hx : x.fail = old.fail) :
    ∀ e ∈ l.set i x, e.fail = Chan.nil := by
  intro e he
  rcases List.mem_or_eq_of_mem_set he with h1 | h1
  · exact hl e h1
  · rw [h1, hx]; exact hl old (List.getElem?_mem hold)

theorem stepFacts_getAlloc (ts : List (Pc V E)) (pick : Bool) (w w' : World V E) (pc' : Pc V E)
    (id key : Str) (hw : FailNil w) (hm : w.memo.cache key = none) (hl : w.memo.mu = true)
    (h : stepPc ts pick w (Pc.getAlloc id key) = StepOut.next pc' w') :
    StepFacts w w' (Pc.getAlloc id key) pc' := by
  simp only [stepPc] at h
  cases h
  refine ⟨?_, rfl, ?_, fun _ => hl, ?_, ?_, Or.inl rfl, fun _ _ h => h, ?_, rfl⟩
  · intro e he
    rcases List.mem_append.1 he with h1 | h1
    · exact hw e h1
    · simp at h1; rw [h1]
  · intro k hk
    simp only [missKey, Option.some.injEq] at hk
    subst hk
    exact hm
  · intro _ hc; simp [inCrit] at hc
  · intro _ _; rfl
  · intro a e h1 h2
    exact ready_append _ _ a e h1 h2

theorem stepFacts_getPublish (ts : List (Pc V E)) (pick : Bool) (w w' : World V E) (pc' : Pc V E)
    (id key : Str) (e : Nat) (hw : FailNil w) (hm : w.memo.cache key = none)
    (hl : w.memo.mu = true)
    (h : stepPc ts pick w (Pc.getPublish id key e) = StepOut.next pc' w') :
    StepFacts w w' (Pc.getPublish id key e) pc' := by
  simp only [stepPc] at h
  cases h
  refine ⟨hw, rfl, ?_, fun _ => hl, ?_, ?_, Or.inr rfl, ?_, fun a e h1 h2 => ⟨e, h1, h2⟩, rfl⟩
  · intro k hk
    simp [missKey] at hk
  · intro _ hc; simp [inCrit] at hc
  · intro _ _; rfl
  · intro k a hk
    have hne : k ≠ key := by
      intro hkk
      rw [hkk, hm] at hk
      exact Option.noConfusion hk
    simp [Function.update, hne, hk]

theorem stepFacts_getStore (ts : List (Pc V E)) (pick : Bool) (w w' : World V E) (pc' : Pc V E)
    (key : Str) (e : Nat) (r : result V E) (hw : FailNil w)
    (h : stepPc ts pick w (Pc.getStore key e r) = StepOut.next pc' w') :
    StepFacts w w' (Pc.getStore key e r) pc' := by
  simp only [stepPc] at h
  split at h
  · cases h
  · rename_i old hold
    cases h
    refine ⟨failNil_set_of_get _ _ old _ hw hold rfl, rfl, ?_, ?_, ?_, ?_, Or.inl rfl,
      fun _ _ h => h, ?_, rfl⟩
    · intro k hk; simp [missKey] at hk
    · intro hc; simp [inCrit] at hc
    · intro hc; simp [inCrit] at hc
    · intro h1 h2; simp only [h1] at h2; exact absurd h2 (by simp)
    · intro a x h1 h2
      exact ready_set_of_get _ _ old { old with res := r } hold (fun h => h) a x h1 h2

theorem stepFacts_getClose (ts : List (Pc V E)) (pick : Bool) (w w' : World V E) (pc' : Pc V E)
    (key : Str) (e : Nat) (hw : FailNil w)
    (h : stepPc ts pick w (Pc.getClose key e) = StepOut.next pc' w') :
    StepFacts w w' (Pc.getClose key e) pc' := by
  simp only [stepPc] at h
  split at h
  · cases h
  · rename_i old hold
    split at h
    · cases h
    · rename_i c hc
      cases h
      refine ⟨failNil_set_of_get _ _ old _ hw hold rfl, rfl, ?_, ?_, ?_, ?_, Or.inl rfl,
        fun _ _ h => h, ?_, rfl⟩
      · intro k hk; simp [missKey] at hk
      · intro hc; simp [inCrit] at hc
      · intro hc; simp [inCrit] at hc
      · intro h1 h2; simp only [h1] at h2; exact absurd h2 (by simp)
      · intro a x h1 h2
        exact ready_set_of_get _ _ old _ hold (fun _ => (closeChan_ok _ _ hc).2) a x h1 h2

theorem stepPc_ccgClose (ts : List (Pc V E)) (pick : Bool) (w w' : World V E) (pc' : Pc V E)
    (url id : Str) (e : Nat) (hw : FailNil w) :
    stepPc ts pick w (Pc.ccgClose url id e) ≠ StepOut.next pc' w' := by
  intro h
  simp only [stepPc] at h
  split at h
  · cases h
  · rename_i old hold
    split at h
    · cases h
    · rename_i c hc
      have := (closeChan_ok _ _ hc).1
      rw [failNil_get w e old hw hold] at this
      cases this

theorem stepPc_next_facts (ts : List (Pc V E)) (pick : Bool) (w w' : World V E) (pc pc' : Pc V E)
    (hw : FailNil w) (hd : deleting pc = false)
    (hm : ∀ k, missKey pc = some k → w.memo.cache k = none)
    (hl : inCrit pc = true → w.memo.mu = true)
    (h : stepPc ts pick w pc = StepOut.next pc' w') :
    StepFacts w w' pc pc' := by
  cases pc
  case getAlloc id key => exact stepFacts_getAlloc ts pick w w' pc' id key hw (hm key rfl) (hl rfl) h
  case getPublish id key e =>
    exact stepFacts_getPublish ts pick w w' pc' id key e hw (hm key rfl) (hl rfl) h
  case getStore key e r => exact stepFacts_getStore ts pick w w' pc' key e r hw h
  case getClose key e => exact stepFacts_getClose ts pick w w' pc' key e hw h
  case ccgClose url id e => exact absurd h (stepPc_ccgClose ts pick w w' pc' url id e hw)
  all_goals simp only [stepPc] at h
  all_goals (repeat' split at h)
  all_goals (try cases h)
  all_goals (refine ⟨?_, ?_, ?_, ?_, ?_, ?_, ?_, ?_, ?_, ?_⟩)
  all_goals (simp_all [inCrit, missKey, deleting, FailNil])

theorem stepPc_spawn (ts : List (Pc V E)) (pick : Bool) (w w' : World V E) (pc pc' child : Pc V E)
    (h : stepPc ts pick w pc = StepOut.spawn pc' child w') :
    w' = w ∧ (∃ key id, pc' = Pc.ccgSelect key id ts.length) ∧ (∃ s, child = Pc.getEntry s) := by
  cases pc <;> simp only [stepPc] at h
  all_goals (repeat' split at h)
  all_goals (try cases h)
  exact ⟨rfl, ⟨_, _, rfl⟩, ⟨_, rfl⟩⟩

theorem missKey_inCrit (pc : Pc V E) (k : Str) (h : missKey pc = some k) : inCrit pc = true := by
  cases pc <;> simp [missKey] at h <;> rfl

theorem getElem?_set_cases {α : Type} (l : List α) (i j : Nat) (x q : α)
    (h : (l.set i x)[j]? = some q) : (j = i ∧ q = x) ∨ (j ≠ i ∧ l[j]? = some q) := by
  by_cases hij : i = j
  · subst hij
    left
    have hlt : i < l.length := by
      have := (List.getElem?_eq_some.1 h).1
      simpa using this
    rw [List.getElem?_set_self hlt] at h
    exact ⟨rfl, (Option.some.inj h).symm⟩
  · right
    rw [List.getElem?_set_ne hij] at h
    exact ⟨fun e => hij e.symm, h⟩

theorem getElem?_append_cases {α : Type} (l : List α) (j : Nat) (x q : α)
    (h : (l ++ [x])[j]? = some q) : (j = l.length ∧ q = x) ∨ (j < l.length ∧ l[j]? = some q) := by
  by_cases hlt : j < l.length
  · right
    rw [List.getElem?_append_left hlt] at h
    exact ⟨hlt, h⟩
  · left
    have hle : l.length ≤ j := Nat.le_of_not_lt hlt
    rw [List.getElem?_append_right hle] at h
    have hj : j - l.length = 0 := by
      by_contra hne
      have : [x][j - l.length]? = none := by
        apply List.getElem?_eq_none
        simp only [List.length_singleton]
        omega
      rw [this] at h
      cases h
    rw [hj] at h
    simp at h
    exact ⟨by omega, h.symm⟩

theorem inv_set_plain (w : World V E) (ts : List (Pc V E)) (hI : Inv w ts) (i : Nat)
    (pc' : Pc V E) (hp : plain pc') : Inv w (ts.set i pc') := by
  refine ⟨hI.failNil, ?_, ?_, ?_, ?_⟩
  · intro j q hq
    rcases getElem?_set_cases ts i j pc' q hq with ⟨_, rfl⟩ | ⟨_, h⟩
    · exact hp.2.1
    · exact hI.noDelete j q h
  · intro j q hq k hk
    rcases getElem?_set_cases ts i j pc' q hq with ⟨_, rfl⟩ | ⟨_, h⟩
    · rw [hp.2.2] at hk; cases hk
    · exact hI.miss j q h k hk
  · intro j q hq hc
    rcases getElem?_set_cases ts i j pc' q hq with ⟨_, rfl⟩ | ⟨_, h⟩
    · rw [hp.1] at hc; cases hc
    · exact hI.held j q h hc
  · intro j1 j2 q1 q2 h1 h2 c1 c2
    rcases getElem?_set_cases ts i j1 pc' q1 h1 with ⟨_, rfl⟩ | ⟨_, h1⟩
    · rw [hp.1] at c1; cases c1
    · rcases getElem?_set_cases ts i j2 pc' q2 h2 with ⟨_, rfl⟩ | ⟨_, h2⟩
      · rw [hp.1] at c2; cases c2
      · exact hI.excl j1 j2 q1 q2 h1 h2 c1 c2

theorem inv_append_plain (w : World V E) (ts : List (Pc V E)) (hI : Inv w ts)
    (pc' : Pc V E) (hp : plain pc') : Inv w (ts ++ [pc']) := by
  refine ⟨hI.failNil, ?_, ?_, ?_, ?_⟩
  · intro j q hq
    rcases getElem?_append_cases ts j pc' q hq with ⟨_, rfl⟩ | ⟨_, h⟩
    · exact hp.2.1
    · exact hI.noDelete j q h
  · intro j q hq k hk
    rcases getElem?_append_cases ts j pc' q hq with ⟨_, rfl⟩ | ⟨_, h⟩
    · rw [hp.2.2] at hk; cases hk
    · exact hI.miss j q h k hk
  · intro j q hq hc
    rcases getElem?_append_cases ts j pc' q hq with ⟨_, rfl⟩ | ⟨_, h⟩
    · rw [hp.1] at hc; cases hc
    · exact hI.held j q h hc
  · intro j1 j2 q1 q2 h1 h2 c1 c2
    rcases getElem?_append_cases ts j1 pc' q1 h1 with ⟨_, rfl⟩ | ⟨_, h1⟩
    · rw [hp.1] at c1; cases c1
    · rcases getElem?_append_cases ts j2 pc' q2 h2 with ⟨_, rfl⟩ | ⟨_, h2⟩
      · rw [hp.1] at c2; cases c2
      · exact hI.excl j1 j2 q1 q2 h1 h2 c1 c2

theorem inv_step (w w' : World V E) (ts : List (Pc V E)) (hI : Inv w ts) (i : Nat)
    (pick : Bool) (pc pc' : Pc V E) (hi : ts[i]? = some pc)
    (h : stepPc ts pick w pc = StepOut.next pc' w') : Inv w' (ts.set i pc') := by
  obtain ⟨f1, f2, f3, f4, f5, f6, f7, _, _, _⟩ := stepPc_next_facts ts pick w w' pc pc' hI.failNil
    (hI.noDelete i pc hi) (hI.miss i pc hi) (hI.held i pc hi) h
  refine ⟨f1, ?_, ?_, ?_, ?_⟩
  · intro j q hq
    rcases getElem?_set_cases ts i j pc' q hq with ⟨_, rfl⟩ | ⟨_, hj⟩
    · exact f2
    · exact hI.noDelete j q hj
  · intro j q hq k hk
    rcases getElem?_set_cases ts i j pc' q hq with ⟨_, rfl⟩ | ⟨hne, hj⟩
    · exact f3 k hk
    · rcases f7 with hc | hc
      · rw [hc]; exact hI.miss j q hj k hk
      · exact absurd (hI.excl j i q pc hj hi (missKey_inCrit q k hk) hc) hne
  · intro j q hq hc
    rcases getElem?_set_cases ts i j pc' q hq with ⟨_, rfl⟩ | ⟨hne, hj⟩
    · exact f4 hc
    · cases hmu : w'.memo.mu with
      | true => rfl
      | false =>
        exact absurd (hI.excl j i q pc hj hi hc (f6 (hI.held j q hj hc) hmu)) hne
  · intro j1 j2 q1 q2 h1 h2 c1 c2
    rcases getElem?_set_cases ts i j1 pc' q1 h1 with ⟨e1, d1⟩ | ⟨n1, g1⟩
    · rcases getElem?_set_cases ts i j2 pc' q2 h2 with ⟨e2, _⟩ | ⟨n2, g2⟩
      · rw [e1, e2]
      · exfalso
        rw [d1] at c1
        cases hpc : inCrit pc with
        | true => exact n2 (hI.excl j2 i q2 pc g2 hi c2 hpc)
        | false =>
          have := hI.held j2 q2 g2 c2
          rw [f5 c1 hpc] at this
          cases this
    · rcases getElem?_set_cases ts i j2 pc' q2 h2 with ⟨e2, d2⟩ | ⟨n2, g2⟩
      · exfalso
        rw [d2] at c2
        cases hpc : inCrit pc with
        | true => exact n1 (hI.excl j1 i q1 pc g1 hi c1 hpc)
        | false =>
          have := hI.held j1 q1 g1 c1
          rw [f5 c2 hpc] at this
          cases this
      · exact hI.excl j1 j2 q1 q2 g1 g2 c1 c2

theorem inv_next (s s' : Sys V E) (hI : Inv s.world s.threads) (h : Next s s') :
    Inv s'.world s'.threads := by
  cases h with
  | callGet key _ => exact inv_append_plain _ _ hI _ ⟨rfl, rfl, rfl⟩
  | callCanCancelGet key id _ => exact inv_append_plain _ _ hI _ ⟨rfl, rfl, rfl⟩
  | step _ i pick hs =>
    unfold Sys.step at hs
    cases hc : s.crashed with
    | some p => simp [hc] at hs
    | none =>
      cases hi : s.threads[i]? with
      | none => simp [hc, hi] at hs
      | some pc =>
        cases hst : stepPc s.threads pick s.world pc with
        | next pc' w' =>
          simp only [hc, hi, hst, Option.some.injEq] at hs
          subst hs
          exact inv_step _ _ _ hI i pick pc pc' hi hst
        | spawn pc' child w' =>
          simp only [hc, hi, hst, Option.some.injEq] at hs
          subst hs
          obtain ⟨rfl, ⟨key, id, rfl⟩, ⟨x, rfl⟩⟩ := stepPc_spawn _ _ _ _ _ _ _ hst
          exact inv_append_plain _ _
            (inv_set_plain _ _ hI i (Pc.ccgSelect key id s.threads.length) ⟨rfl, rfl, rfl⟩)
            (Pc.getEntry x) ⟨rfl, rfl, rfl⟩
        | panic p =>
          simp only [hc, hi, hst, Option.some.injEq] at hs
          subst hs
          exact hI
        | stuck => simp [hc, hi, hst] at hs

theorem inv_start (inv : Option (Str → Bool)) (f : Func V E) :
    Inv (Sys.start inv f).world (Sys.start inv f).threads := by
  refine ⟨?_, ?_, ?_, ?_, ?_⟩
  · intro e he; simp [Sys.start, start] at he
  · intro j pc hj; simp [Sys.start] at hj
  · intro j pc hj; simp [Sys.start] at hj
  · intro j pc hj; simp [Sys.start] at hj
  · intro i j pc pc' hj; simp [Sys.start] at hj

theorem inv_reach (s0 s : Sys V E) (h0 : Inv s0.world s0.threads) (h : Reach s0 s) :
    Inv s.world s.threads := by
  induction h with
  | refl => exact h0
  | tail _ hn ih => exact inv_next _ _ ih hn

theorem next_keeps (s s' : Sys V E) (hI : Inv s.world s.threads) (h : Next s s') :
    (∀ k a, s.world.memo.cache k = some a → s'.world.memo.cache k = some a) ∧
    (∀ (a : Nat) (e : entry V E), s.world.heap[a]? = some e → e.ready = Chan.closed →
      ∃ e', s'.world.heap[a]? = some e' ∧ e'.ready = Chan.closed) := by
  cases h with
  | callGet key _ => exact ⟨fun _ _ h => h, fun _ e h1 h2 => ⟨e, h1, h2⟩⟩
  | callCanCancelGet key id _ => exact ⟨fun _ _ h => h, fun _ e h1 h2 => ⟨e, h1, h2⟩⟩
  | step _ i pick hs =>
    unfold Sys.step at hs
    cases hc : s.crashed with
    | some p => simp [hc] at hs
    | none =>
      cases hi : s.threads[i]? with
      | none => simp [hc, hi] at hs
      | some pc =>
        cases hst : stepPc s.threads pick s.world pc with
        | next pc' w' =>
          simp only [hc, hi, hst, Option.some.injEq] at hs
          subst hs
          obtain ⟨_, _, _, _, _, _, _, f8, f9, _⟩ := stepPc_next_facts _ pick _ w' pc pc'
            hI.failNil (hI.noDelete i pc hi) (hI.miss i pc hi) (hI.held i pc hi) hst
          exact ⟨f8, f9⟩
        | spawn pc' child w' =>
          simp only [hc, hi, hst, Option.some.injEq] at hs
          subst hs
          obtain ⟨rfl, _, _⟩ := stepPc_spawn _ _ _ _ _ _ _ hst
          exact ⟨fun _ _ h => h, fun _ e h1 h2 => ⟨e, h1, h2⟩⟩
        | panic p =>
          simp only [hc, hi, hst, Option.some.injEq] at hs
          subst hs
          exact ⟨fun _ _ h => h, fun _ e h1 h2 => ⟨e, h1, h2⟩⟩
        | stuck => simp [hc, hi, hst] at hs

/-! ### With `invoker` nil -/

theorem stepPc_fresh (ts : List (Pc V E)) (pick : Bool) (w w' : World V E) (pc pc' : Pc V E)
    (hw : Fresh w) (hp : early pc = true)
    (h : stepPc ts pick w pc = StepOut.next pc' w') : Fresh w' ∧ early pc' = true := by
  obtain ⟨h1, h2, h3⟩ := hw
  cases pc
  case getAlloc id key =>
    simp only [stepPc] at h
    cases h
    refine ⟨⟨h1, h2, ?_⟩, rfl⟩
    intro e he
    rcases List.mem_append.1 he with hm | hm
    · exact h3 e hm
    · simp at hm; rw [hm]; exact ⟨rfl, rfl⟩
  case getInvoker id key e => simp [stepPc, h1, mapAssign] at h
  case getSelect key e =>
    simp only [stepPc] at h
    cases he : w.heap[e]? with
    | none => simp [he] at h
    | some old =>
      obtain ⟨hr, hf⟩ := h3 old (List.getElem?_mem he)
      simp [he, hr, hf] at h
  case ccgClose url id e =>
    simp only [stepPc] at h
    cases he : w.heap[e]? with
    | none => simp [he] at h
    | some old =>
      obtain ⟨hr, hf⟩ := h3 old (List.getElem?_mem he)
      simp [he, hf, closeChan] at h
  case ccgDeleteInvoker id =>
    simp only [stepPc] at h
    cases h
    exact ⟨⟨by simp [h1, mapDelete], h2, h3⟩, rfl⟩
  all_goals (try (simp [early] at hp; done))
  all_goals simp only [stepPc] at h
  all_goals (repeat' split at h)
  all_goals (try cases h)
  all_goals (exact ⟨⟨h1, h2, h3⟩, rfl⟩)

theorem fresh_next (s s' : Sys V E) (hI : FreshSys s) (h : Next s s') : FreshSys s' := by
  obtain ⟨hw, hts⟩ := hI
  cases h with
  | callGet key _ =>
    refine ⟨hw, ?_⟩
    intro q hq
    rcases List.mem_append.1 hq with hm | hm
    · exact hts q hm
    · simp at hm; rw [hm]; rfl
  | callCanCancelGet key id _ =>
    refine ⟨hw, ?_⟩
    intro q hq
    rcases List.mem_append.1 hq with hm | hm
    · exact hts q hm
    · simp at hm; rw [hm]; rfl
  | step _ i pick hs =>
    unfold Sys.step at hs
    cases hc : s.crashed with
    | some p => simp [hc] at hs
    | none =>
      cases hi : s.threads[i]? with
      | none => simp [hc, hi] at hs
      | some pc =>
        have hpc : early pc = true := hts pc (List.getElem?_mem hi)
        cases hst : stepPc s.threads pick s.world pc with
        | next pc' w' =>
          simp only [hc, hi, hst, Option.some.injEq] at hs
          subst hs
          obtain ⟨g1, g2⟩ := stepPc_fresh _ pick _ w' pc pc' hw hpc hst
          refine ⟨g1, ?_⟩
          intro q hq
          rcases List.mem_or_eq_of_mem_set hq with hm | hm
          · exact hts q hm
          · rw [hm]; exact g2
        | spawn pc' child w' =>
          simp only [hc, hi, hst, Option.some.injEq] at hs
          subst hs
          obtain ⟨rfl, ⟨key, id, rfl⟩, ⟨x, rfl⟩⟩ := stepPc_spawn _ _ _ _ _ _ _ hst
          refine ⟨hw, ?_⟩
          intro q hq
          rcases List.mem_append.1 hq with hm | hm
          · rcases List.mem_or_eq_of_mem_set hm with hm | hm
            · exact hts q hm
            · rw [hm]; rfl
          · simp at hm; rw [hm]; rfl
        | panic p =>
          simp only [hc, hi, hst, Option.some.injEq] at hs
          subst hs
          exact ⟨hw, hts⟩
        | stuck => simp [hc, hi, hst] at hs

theorem fresh_reach (f : Func V E) (s : Sys V E) (h : Reach (Sys.boot f) s) : FreshSys s := by
  induction h with
  | refl =>
    refine ⟨⟨rfl, rfl, ?_⟩, ?_⟩
    · intro e he; simp [Sys.boot, Sys.start, start] at he
    · intro q hq; simp [Sys.boot, Sys.start] at hq
  | tail _ hn ih => exact fresh_next _ _ ih hn

/-! ### The heap -/

theorem own_ptr (pc : Pc V E) (e : Nat) (h : own pc = some e) : ptr pc = some e := by
  cases pc <;> simp [own] at h <;> simp [ptr, h]

theorem set_other {α : Type} (l : List α) (i a : Nat) (x y : α) (h : l[a]? = some y)
    (hne : i ≠ a) : (l.set i x)[a]? = some y := by
  rw [List.getElem?_set_ne hne]; exact h

theorem append_old {α : Type} (l : List α) (a : Nat) (x y : α) (h : l[a]? = some y) :
    (l ++ [x])[a]? = some y := by
  rw [List.getElem?_append_left (List.getElem?_eq_some.1 h).1]; exact h

theorem set_self_get {α : Type} (l : List α) (i : Nat) (x y : α) (h : (l.set i x)[i]? = some y) :
    y = x := by
  rcases getElem?_set_cases l i i x y h with ⟨_, h1⟩ | ⟨h1, _⟩
  · exact h1
  · exact absurd rfl h1

theorem stepPc_heap_facts (ts : List (Pc V E)) (pick : Bool) (w w' : World V E) (pc pc' : Pc V E)
    (hw : FailNil w) (hp : ∀ e, ptr pc = some e → e < w.heap.length)
    (hc : ∀ k a, w.memo.cache k = some a → a < w.heap.length)
    (ho : ∀ (e : Nat) (x : entry V E), own pc = some e → w.heap[e]? = some x →
      x.ready = Chan.opened)
    (h : stepPc ts pick w pc = StepOut.next pc' w') : HeapFacts w w' pc pc' := by
  cases pc
  case ccgClose url id e => exact absurd h (stepPc_ccgClose ts pick w w' pc' url id e hw)
  case getLookup id key =>
    simp only [stepPc] at h
    split at h
    · cases h
      exact ⟨by simp [ptr], hc, le_refl _, by simp [own], fun _ _ h => Or.inr h, by simp [own]⟩
    · rename_i a ha
      cases h
      refine ⟨?_, hc, le_refl _, by simp [own], fun _ _ h => Or.inr h, by simp [own]⟩
      intro e he
      simp only [ptr, Option.some.injEq] at he
      subst he
      exact hc key _ ha
  case getAlloc id key =>
    simp only [stepPc] at h
    cases h
    refine ⟨?_, ?_, by simp, ?_, ?_, ?_⟩
    · intro e he
      simp only [ptr, Option.some.injEq] at he
      subst he
      simp
    · intro k a ha
      have := hc k a ha
      simp only [List.length_append, List.length_singleton]
      omega
    · intro e he
      simp only [own, Option.some.injEq] at he
      exact Or.inr he.symm
    · intro a x hx
      exact Or.inr (append_old _ _ _ _ hx)
    · intro e x he hx
      simp only [own, Option.some.injEq] at he
      subst he
      simp at hx
      rw [← hx]
  case getPublish id key e =>
    simp only [stepPc] at h
    cases h
    refine ⟨hp, ?_, le_refl _, fun _ h => Or.inl h, fun _ _ h => Or.inr h, ho⟩
    intro k a ha
    by_cases hk : k = key
    · subst hk
      simp at ha
      subst ha
      exact hp _ rfl
    · simp [Function.update, hk] at ha
      exact hc k a ha
  case getStore key e r =>
    simp only [stepPc] at h
    split at h
    · cases h
    · rename_i old hold
      cases h
      refine ⟨by simpa [ptr] using hp, by simpa using hc, by simp, fun _ h => Or.inl h, ?_, ?_⟩
      · intro a x hx
        by_cases hea : e = a
        · exact Or.inl (by simp [own, hea])
        · exact Or.inr (set_other _ _ _ _ _ hx hea)
      · intro e' x he' hx
        simp only [own, Option.some.injEq] at he'
        subst he'
        have := set_self_get _ _ _ _ hx
        rw [this]
        exact ho e old rfl hold
  case getClose key e =>
    simp only [stepPc] at h
    split at h
    · cases h
    · rename_i old hold
      split at h
      · cases h
      · cases h
        refine ⟨by simpa [ptr] using hp, by simpa using hc, by simp, by simp [own], ?_,
          by simp [own]⟩
        intro a x hx
        by_cases hea : e = a
        · exact Or.inl (by simp [own, hea])
        · exact Or.inr (set_other _ _ _ _ _ hx hea)
  case ccgLookup url id =>
    simp only [stepPc] at h
    split at h
    · cases h
      exact ⟨by simp [ptr], hc, le_refl _, by simp [own], fun _ _ h => Or.inr h, by simp [own]⟩
    · rename_i a ha
      cases h
      refine ⟨?_, hc, le_refl _, by simp [own], fun _ _ h => Or.inr h, by simp [own]⟩
      intro e he
      simp only [ptr, Option.some.injEq] at he
      subst he
      exact hc url _ ha
  case ccgDeleteCache url id =>
    simp only [stepPc] at h
    cases h
    refine ⟨by simp [ptr], ?_, le_refl _, by simp [own], fun _ _ h => Or.inr h, by simp [own]⟩
    intro k a ha
    by_cases hk : k = url
    · subst hk; simp at ha
    · simp [Function.update, hk] at ha
      exact hc k a ha
  all_goals simp only [stepPc] at h
  all_goals (repeat' split at h)
  all_goals (try cases h)
  all_goals
    refine ⟨?_, hc, le_refl _, ?_, fun _ _ h => Or.inr h, ?_⟩
  all_goals (first | exact hp | exact ho | simp [ptr, own])

theorem own_set_plain (w : World V E) (ts : List (Pc V E)) (hO : Own w ts) (i : Nat)
    (pc' : Pc V E) (hp : ptr pc' = none) : Own w (ts.set i pc') := by
  have hown : ∀ e, own pc' ≠ some e := fun e h => by
    rw [own_ptr pc' e h] at hp; cases hp
  refine ⟨?_, hO.cacheOk, ?_, ?_⟩
  · intro j q e hq he
    rcases getElem?_set_cases ts i j pc' q hq with ⟨_, rfl⟩ | ⟨_, h⟩
    · rw [hp] at he; cases he
    · exact hO.ptrOk j q e h he
  · intro j q e x hq he hx
    rcases getElem?_set_cases ts i j pc' q hq with ⟨_, rfl⟩ | ⟨_, h⟩
    · exact absurd he (hown e)
    · exact hO.ownOpen j q e x h he hx
  · intro j1 j2 q1 q2 e h1 h2 o1 o2
    rcases getElem?_set_cases ts i j1 pc' q1 h1 with ⟨_, d1⟩ | ⟨_, g1⟩
    · rw [d1] at o1; exact absurd o1 (hown e)
    · rcases getElem?_set_cases ts i j2 pc' q2 h2 with ⟨_, d2⟩ | ⟨_, g2⟩
      · rw [d2] at o2; exact absurd o2 (hown e)
      · exact hO.ownDistinct j1 j2 q1 q2 e g1 g2 o1 o2

theorem own_append_plain (w : World V E) (ts : List (Pc V E)) (hO : Own w ts)
    (pc' : Pc V E) (hp : ptr pc' = none) : Own w (ts ++ [pc']) := by
  have hown : ∀ e, own pc' ≠ some e := fun e h => by
    rw [own_ptr pc' e h] at hp; cases hp
  refine ⟨?_, hO.cacheOk, ?_, ?_⟩
  · intro j q e hq he
    rcases getElem?_append_cases ts j pc' q hq with ⟨_, rfl⟩ | ⟨_, h⟩
    · rw [hp] at he; cases he
    · exact hO.ptrOk j q e h he
  · intro j q e x hq he hx
    rcases getElem?_append_cases ts j pc' q hq with ⟨_, rfl⟩ | ⟨_, h⟩
    · exact absurd he (hown e)
    · exact hO.ownOpen j q e x h he hx
  · intro j1 j2 q1 q2 e h1 h2 o1 o2
    rcases getElem?_append_cases ts j1 pc' q1 h1 with ⟨_, d1⟩ | ⟨_, g1⟩
    · rw [d1] at o1; exact absurd o1 (hown e)
    · rcases getElem?_append_cases ts j2 pc' q2 h2 with ⟨_, d2⟩ | ⟨_, g2⟩
      · rw [d2] at o2; exact absurd o2 (hown e)
      · exact hO.ownDistinct j1 j2 q1 q2 e g1 g2 o1 o2

theorem heap_facts_at (w w' : World V E) (ts : List (Pc V E)) (hF : FailNil w) (hO : Own w ts)
    (i : Nat) (pick : Bool) (pc pc' : Pc V E) (hi : ts[i]? = some pc)
    (h : stepPc ts pick w pc = StepOut.next pc' w') : HeapFacts w w' pc pc' :=
  stepPc_heap_facts ts pick w w' pc pc' hF (fun e he => hO.ptrOk i pc e hi he) hO.cacheOk
    (fun e x he hx => hO.ownOpen i pc e x hi he hx) h

theorem own_step (w w' : World V E) (ts : List (Pc V E)) (hF : FailNil w) (hO : Own w ts)
    (i : Nat) (pick : Bool) (pc pc' : Pc V E) (hi : ts[i]? = some pc)
    (h : stepPc ts pick w pc = StepOut.next pc' w') : Own w' (ts.set i pc') := by
  obtain ⟨g1, g2, g3, g4, g5, g6⟩ := heap_facts_at w w' ts hF hO i pick pc pc' hi h
  refine ⟨?_, g2, ?_, ?_⟩
  · intro j q e hq he
    rcases getElem?_set_cases ts i j pc' q hq with ⟨_, d⟩ | ⟨_, hj⟩
    · rw [d] at he; exact g1 e he
    · exact Nat.lt_of_lt_of_le (hO.ptrOk j q e hj he) g3
  · intro j q e x hq he hx
    rcases getElem?_set_cases ts i j pc' q hq with ⟨_, d⟩ | ⟨hne, hj⟩
    · rw [d] at he; exact g6 e x he hx
    · have hlt := hO.ptrOk j q e hj (own_ptr q e he)
      obtain ⟨x0, hx0⟩ : ∃ x0, w.heap[e]? = some x0 :=
        ⟨w.heap[e], List.getElem?_eq_getElem hlt⟩
      rcases g5 e x0 hx0 with ho | hs
      · exact absurd (hO.ownDistinct j i q pc e hj hi he ho) hne
      · rw [hs] at hx
        rw [← Option.some.inj hx]
        exact hO.ownOpen j q e x0 hj he hx0
  · intro j1 j2 q1 q2 e h1 h2 o1 o2
    rcases getElem?_set_cases ts i j1 pc' q1 h1 with ⟨e1, d1⟩ | ⟨n1, k1⟩
    · rcases getElem?_set_cases ts i j2 pc' q2 h2 with ⟨e2, _⟩ | ⟨n2, k2⟩
      · rw [e1, e2]
      · exfalso
        rw [d1] at o1
        have hlt := hO.ptrOk j2 q2 e k2 (own_ptr q2 e o2)
        rcases g4 e o1 with ho | hfresh
        · exact n2 (hO.ownDistinct j2 i q2 pc e k2 hi o2 ho)
        · omega
    · rcases getElem?_set_cases ts i j2 pc' q2 h2 with ⟨e2, d2⟩ | ⟨n2, k2⟩
      · exfalso
        rw [d2] at o2
        have hlt := hO.ptrOk j1 q1 e k1 (own_ptr q1 e o1)
        rcases g4 e o2 with ho | hfresh
        · exact n1 (hO.ownDistinct j1 i q1 pc e k1 hi o1 ho)
        · omega
      · exact hO.ownDistinct j1 j2 q1 q2 e k1 k2 o1 o2

theorem closeChan_not_badPointer (c : Chan) : closeChan c ≠ Except.error Panic.badPointer := by
  cases c <;> simp [closeChan]

theorem mapAssign_not_badPointer (m : Option (Str → Bool)) (k : Str) :
    mapAssign m k ≠ Except.error Panic.badPointer := by
  cases m <;> simp [mapAssign]

theorem stepPc_badPointer (ts : List (Pc V E)) (pick : Bool) (w : World V E) (pc : Pc V E)
    (h : stepPc ts pick w pc = StepOut.panic Panic.badPointer) :
    ∃ e, ptr pc = some e ∧ w.heap[e]? = none := by
  cases pc <;> simp only [stepPc] at h
  all_goals (repeat' split at h)
  all_goals (try cases h)
  all_goals (try (exact ⟨_, rfl, by assumption⟩))
  all_goals (try (exact absurd (by assumption) (closeChan_not_badPointer _)))
  all_goals (try (exact absurd (by assumption) (mapAssign_not_badPointer _ _)))

theorem good_next (s s' : Sys V E) (hG : Good s) (h : Next s s') : Good s' := by
  refine ⟨inv_next s s' hG.1 h, ?_⟩
  obtain ⟨hI, hO⟩ := hG
  cases h with
  | callGet key _ => exact own_append_plain _ _ hO _ rfl
  | callCanCancelGet key id _ => exact own_append_plain _ _ hO _ rfl
  | step _ i pick hs =>
    unfold Sys.step at hs
    cases hc : s.crashed with
    | some p => simp [hc] at hs
    | none =>
      cases hi : s.threads[i]? with
      | none => simp [hc, hi] at hs
      | some pc =>
        cases hst : stepPc s.threads pick s.world pc with
        | next pc' w' =>
          simp only [hc, hi, hst, Option.some.injEq] at hs
          subst hs
          exact own_step _ _ _ hI.failNil hO i pick pc pc' hi hst
        | spawn pc' child w' =>
          simp only [hc, hi, hst, Option.some.injEq] at hs
          subst hs
          obtain ⟨rfl, ⟨key, id, rfl⟩, ⟨x, rfl⟩⟩ := stepPc_spawn _ _ _ _ _ _ _ hst
          exact own_append_plain _ _
            (own_set_plain _ _ hO i (Pc.ccgSelect key id s.threads.length) rfl)
            (Pc.getEntry x) rfl
        | panic p =>
          simp only [hc, hi, hst, Option.some.injEq] at hs
          subst hs
          exact hO
        | stuck => simp [hc, hi, hst] at hs

theorem good_start (inv : Option (Str → Bool)) (f : Func V E) : Good (Sys.start inv f) := by
  refine ⟨inv_start inv f, ?_, ?_, ?_, ?_⟩
  · intro j pc e hj; simp [Sys.start] at hj
  · intro k a hk; simp [Sys.start, start, New] at hk
  · intro j pc e x hj; simp [Sys.start] at hj
  · intro i j pc pc' e hj; simp [Sys.start] at hj

theorem good_reach (s0 s : Sys V E) (h0 : Good s0) (h : Reach s0 s) : Good s := by
  induction h with
  | refl => exact h0
  | tail _ hn ih => exact good_next _ _ ih hn

/-- A completed entry is frozen: no statement changes it. -/
theorem next_frozen (s s' : Sys V E) (hG : Good s) (h : Next s s') (a : Nat) (x : entry V E)
    (hx : s.world.heap[a]? = some x) (hr : x.ready = Chan.closed) :
    s'.world.heap[a]? = some x := by
  obtain ⟨hI, hO⟩ := hG
  cases h with
  | callGet key _ => exact hx
  | callCanCancelGet key id _ => exact hx
  | step _ i pick hs =>
    unfold Sys.step at hs
    cases hc : s.crashed with
    | some p => simp [hc] at hs
    | none =>
      cases hi : s.threads[i]? with
      | none => simp [hc, hi] at hs
      | some pc =>
        cases hst : stepPc s.threads pick s.world pc with
        | next pc' w' =>
          simp only [hc, hi, hst, Option.some.injEq] at hs
          subst hs
          obtain ⟨_, _, _, _, g5, _⟩ := heap_facts_at _ w' _ hI.failNil hO i pick pc pc' hi hst
          rcases g5 a x hx with ho | hs
          · have := hO.ownOpen i pc a x hi ho hx
            rw [hr] at this
            cases this
          · exact hs
        | spawn pc' child w' =>
          simp only [hc, hi, hst, Option.some.injEq] at hs
          subst hs
          obtain ⟨rfl, _, _⟩ := stepPc_spawn _ _ _ _ _ _ _ hst
          exact hx
        | panic p =>
          simp only [hc, hi, hst, Option.some.injEq] at hs
          subst hs
          exact hx
        | stuck => simp [hc, hi, hst] at hs

/-- No statement of a reachable program follows a dangling address. -/
theorem next_no_badPointer (s s' : Sys V E) (hG : Good s) (h : Next s s')
    (hs : s.crashed ≠ some Panic.badPointer) : s'.crashed ≠ some Panic.badPointer := by
  obtain ⟨hI, hO⟩ := hG
  cases h with
  | callGet key _ => exact hs
  | callCanCancelGet key id _ => exact hs
  | step _ i pick hst =>
    unfold Sys.step at hst
    cases hc : s.crashed with
    | some p => simp [hc] at hst
    | none =>
      cases hi : s.threads[i]? with
      | none => simp [hc, hi] at hst
      | some pc =>
        cases hp : stepPc s.threads pick s.world pc with
        | next pc' w' =>
          simp only [hc, hi, hp, Option.some.injEq] at hst
          subst hst
          simp
        | spawn pc' child w' =>
          simp only [hc, hi, hp, Option.some.injEq] at hst
          subst hst
          simp
        | panic p =>
          simp only [hc, hi, hp, Option.some.injEq] at hst
          subst hst
          intro hb
          simp only [Option.some.injEq] at hb
          subst hb
          obtain ⟨e, he, hnone⟩ := stepPc_badPointer _ _ _ _ hp
          have hlt := hO.ptrOk i pc e hi he
          rw [List.getElem?_eq_getElem hlt] at hnone
          cases hnone
        | stuck => simp [hc, hi, hp] at hst

theorem reach_frozen (s s' : Sys V E) (hG : Good s) (h : Reach s s')
    (k : Str) (a : Nat) (e : entry V E) (hc : s.world.memo.cache k = some a)
    (he : s.world.heap[a]? = some e) (hr : e.ready = Chan.closed) :
    s'.world.memo.cache k = some a ∧ s'.world.heap[a]? = some e := by
  induction h with
  | refl => exact ⟨hc, he⟩
  | tail hsm hn ih =>
    have hG' := good_reach _ _ hG hsm
    exact ⟨(next_keeps _ _ hG'.1 hn).1 k a ih.1, next_frozen _ _ hG' hn a e ih.2 hr⟩

/-- The panic `badPointer` of the model never happens: a reachable program
only follows addresses of allocated entries. -/
theorem reach_no_badPointer (inv : Option (Str → Bool)) (f : Func V E) (s : Sys V E)
    (h : Reach (Sys.start inv f) s) : s.crashed ≠ some Panic.badPointer := by
  induction h with
  | refl => simp [Sys.start]
  | tail hsm hn ih => exact next_no_badPointer _ _ (good_reach _ _ (good_start inv f) hsm) hn ih

/-! ### At most one computation per key -/

theorem stepPc_once_facts (ts : List (Pc V E)) (pick : Bool) (w w' : World V E) (pc pc' : Pc V E)
    (h : stepPc ts pick w pc = StepOut.next pc' w') : OnceFacts w w' pc pc' := by
  cases pc
  case getPublish id key e =>
    simp only [stepPc] at h
    cases h
    exact Or.inr (Or.inl ⟨id, key, e, rfl, rfl, rfl, rfl⟩)
  case getCall key e =>
    simp only [stepPc] at h
    cases h
    exact Or.inr (Or.inr (Or.inl ⟨key, e, rfl, rfl, rfl, rfl⟩))
  case ccgDeleteCache url id => exact Or.inr (Or.inr (Or.inr rfl))
  case ccgDeleteInvoker id => exact Or.inr (Or.inr (Or.inr rfl))
  all_goals simp only [stepPc] at h
  all_goals (repeat' split at h)
  all_goals (try cases h)
  all_goals (first | exact Or.inl ⟨rfl, rfl, Or.inl rfl⟩ | exact Or.inl ⟨rfl, rfl, Or.inr rfl⟩)

theorem precall_own (pc : Pc V E) (k : Str) (e : Nat) (h : precall pc = some (k, e)) :
    own pc = some e := by
  cases pc <;> simp [precall] at h <;> simp [own, h]

theorem once_set_plain (w : World V E) (ts : List (Pc V E)) (hS : Once w ts) (i : Nat)
    (pc' : Pc V E) (hp : precall pc' = none) : Once w (ts.set i pc') := by
  refine ⟨hS.nodup, hS.logged, ?_⟩
  intro j q k e hq hk
  rcases getElem?_set_cases ts i j pc' q hq with ⟨_, d⟩ | ⟨_, hj⟩
  · rw [d, hp] at hk; cases hk
  · exact hS.pending j q k e hj hk

theorem once_append_plain (w : World V E) (ts : List (Pc V E)) (hS : Once w ts)
    (pc' : Pc V E) (hp : precall pc' = none) : Once w (ts ++ [pc']) := by
  refine ⟨hS.nodup, hS.logged, ?_⟩
  intro j q k e hq hk
  rcases getElem?_append_cases ts j pc' q hq with ⟨_, d⟩ | ⟨_, hj⟩
  · rw [d, hp] at hk; cases hk
  · exact hS.pending j q k e hj hk

theorem once_step (w w' : World V E) (ts : List (Pc V E)) (hI : Inv w ts) (hO : Own w ts)
    (hS : Once w ts) (i : Nat) (pick : Bool) (pc pc' : Pc V E) (hi : ts[i]? = some pc)
    (h : stepPc ts pick w pc = StepOut.next pc' w') : Once w' (ts.set i pc') := by
  rcases stepPc_once_facts ts pick w w' pc pc' h with
    ⟨hcalls, hcache, hpre⟩ | ⟨id, key, e, rfl, hpre, hcalls, hcache⟩ |
    ⟨key, e, rfl, hpre, hcalls, hcache⟩ | hdel
  · refine ⟨hcalls ▸ hS.nodup, ?_, ?_⟩
    · intro k hk
      rw [hcache]
      exact hS.logged k (hcalls ▸ hk)
    · intro j q k e hq hk
      rw [hcache, hcalls]
      rcases getElem?_set_cases ts i j pc' q hq with ⟨_, d⟩ | ⟨_, hj⟩
      · rw [d] at hk
        rcases hpre with hn | hsame
        · rw [hn] at hk; cases hk
        · rw [hsame] at hk
          exact hS.pending i pc k e hi hk
      · exact hS.pending j q k e hj hk
  · have hmiss : w.memo.cache key = none := hI.miss i _ hi key rfl
    refine ⟨hcalls ▸ hS.nodup, ?_, ?_⟩
    · intro k hk
      rw [hcache]
      by_cases hkk : k = key
      · subst hkk; simp
      · simp only [Function.update, hkk, dite_false]
        exact hS.logged k (hcalls ▸ hk)
    · intro j q k e' hq hk
      rw [hcache, hcalls]
      rcases getElem?_set_cases ts i j pc' q hq with ⟨_, d⟩ | ⟨_, hj⟩
      · rw [d, hpre] at hk
        simp only [Option.some.injEq, Prod.mk.injEq] at hk
        obtain ⟨rfl, rfl⟩ := hk
        refine ⟨by simp, ?_⟩
        intro hin
        exact hS.logged _ hin hmiss
      · obtain ⟨h1, h2⟩ := hS.pending j q k e' hj hk
        have hne : k ≠ key := by
          intro hkk
          rw [hkk, hmiss] at h1
          cases h1
        exact ⟨by simp [Function.update, hne, h1], h2⟩
  · obtain ⟨hc0, hn0⟩ := hS.pending i _ key e hi rfl
    refine ⟨?_, ?_, ?_⟩
    · rw [hcalls]
      refine List.Nodup.append hS.nodup (List.nodup_singleton key) ?_
      intro a ha hb
      simp only [List.mem_singleton] at hb
      exact hn0 (hb ▸ ha)
    · intro k hk
      rw [hcache]
      rw [hcalls] at hk
      rcases List.mem_append.1 hk with hk | hk
      · exact hS.logged k hk
      · simp only [List.mem_singleton] at hk
        rw [hk, hc0]
        simp
    · intro j q k e' hq hk
      rw [hcache, hcalls]
      rcases getElem?_set_cases ts i j pc' q hq with ⟨_, d⟩ | ⟨hne, hj⟩
      · rw [d, hpre] at hk; cases hk
      · obtain ⟨h1, h2⟩ := hS.pending j q k e' hj hk
        refine ⟨h1, ?_⟩
        intro hin
        rcases List.mem_append.1 hin with hin | hin
        · exact h2 hin
        · simp only [List.mem_singleton] at hin
          rw [hin, hc0] at h1
          have hee : e = e' := Option.some.inj h1
          subst hee
          exact hne (hO.ownDistinct j i q _ e hj hi (precall_own q k e hk) rfl)
  · have := hI.noDelete i pc hi
    rw [hdel] at this
    cases this

theorem once_next (s s' : Sys V E) (hG : Good s) (hS : Once s.world s.threads) (h : Next s s') :
    Once s'.world s'.threads := by
  obtain ⟨hI, hO⟩ := hG
  cases h with
  | callGet key _ => exact once_append_plain _ _ hS _ rfl
  | callCanCancelGet key id _ => exact once_append_plain _ _ hS _ rfl
  | step _ i pick hs =>
    unfold Sys.step at hs
    cases hc : s.crashed with
    | some p => simp [hc] at hs
    | none =>
      cases hi : s.threads[i]? with
      | none => simp [hc, hi] at hs
      | some pc =>
        cases hst : stepPc s.threads pick s.world pc with
        | next pc' w' =>
          simp only [hc, hi, hst, Option.some.injEq] at hs
          subst hs
          exact once_step _ _ _ hI hO hS i pick pc pc' hi hst
        | spawn pc' child w' =>
          simp only [hc, hi, hst, Option.some.injEq] at hs
          subst hs
          obtain ⟨rfl, ⟨key, id, rfl⟩, ⟨x, rfl⟩⟩ := stepPc_spawn _ _ _ _ _ _ _ hst
          exact once_append_plain _ _
            (once_set_plain _ _ hS i (Pc.ccgSelect key id s.threads.length) rfl)
            (Pc.getEntry x) rfl
        | panic p =>
          simp only [hc, hi, hst, Option.some.injEq] at hs
          subst hs
          exact hS
        | stuck => simp [hc, hi, hst] at hs

theorem once_start (inv : Option (Str → Bool)) (f : Func V E) :
    Once (Sys.start inv f).world (Sys.start inv f).threads := by
  refine ⟨?_, ?_, ?_⟩
  · simp [Sys.start, start]
  · intro k hk; simp [Sys.start, start] at hk
  · intro j pc k e hj; simp [Sys.start] at hj

/-- Single-flight, the safety half: whatever `invoker` holds, in every state
the program reaches from `New(f)`, in any interleaving of any calls, no key
occurs twice in the log of the calls of `f`. -/
theorem reach_once (inv : Option (Str → Bool)) (f : Func V E) (s : Sys V E)
    (h : Reach (Sys.start inv f) s) : s.world.calls.Nodup := by
  have key : Good s ∧ Once s.world s.threads := by
    induction h with
    | refl => exact ⟨good_start inv f, once_start inv f⟩
    | tail _ hn ih => exact ⟨good_next _ _ ih.1 hn, once_next _ _ ih.1 ih.2 hn⟩
  exact key.2.nodup

/-! ### The values returned -/

theorem knows_plain (f : Func V E) (w : World V E) (pc : Pc V E) (h1 : linked pc = none)
    (h2 : ptr pc = none) (h3 : ∀ k r, pc ≠ Pc.returned k r) : Knows f w pc := by
  refine ⟨?_, ?_, ?_, ?_, ?_, ?_⟩
  · intro key e h; rw [h1] at h; cases h
  · intro id key e h; rw [h] at h2; cases h2
  · intro key e r h; rw [h] at h2; cases h2
  · intro key e x h; rw [h] at h2; cases h2
  · intro key e x h; rw [h] at h2; cases h2
  · intro k r h; exact absurd h (h3 k r)

theorem stepPc_sound (f : Func V E) (ts : List (Pc V E)) (pick : Bool) (w w' : World V E)
    (pc pc' : Pc V E) (hw : FailNil w) (hS : Sound f w) (hK : Knows f w pc)
    (hp : ∀ e, ptr pc = some e → e < w.heap.length)
    (hc : ∀ k a, w.memo.cache k = some a → a < w.heap.length)
    (ho : ∀ (e : Nat) (x : entry V E), own pc = some e → w.heap[e]? = some x →
      x.ready = Chan.opened)
    (hm : ∀ k, missKey pc = some k → w.memo.cache k = none)
    (hd : deleting pc = false)
    (h : stepPc ts pick w pc = StepOut.next pc' w') : Sound f w' ∧ Knows f w' pc' := by
  cases pc
  case ccgClose url id e => exact absurd h (stepPc_ccgClose ts pick w w' pc' url id e hw)
  case ccgDeleteCache url id => simp [deleting] at hd
  case ccgDeleteInvoker id => simp [deleting] at hd
  case getEntry s =>
    simp only [stepPc] at h
    split at h
    · cases h
      exact ⟨hS, knows_plain f w _ rfl rfl (by simp)⟩
    · cases h
  case getLock id key =>
    simp only [stepPc] at h
    split at h
    · cases h
    · cases h
      exact ⟨⟨hS.fconst, hS.inj, hS.done⟩, knows_plain f _ _ rfl rfl (by simp)⟩
  case getLookup id key =>
    simp only [stepPc] at h
    split at h
    · cases h
      exact ⟨hS, knows_plain f w _ rfl rfl (by simp)⟩
    · rename_i a ha
      cases h
      refine ⟨hS, ⟨?_, by simp, by simp, by simp, by simp, by simp⟩⟩
      intro k e hk
      simp only [linked, Option.some.injEq, Prod.mk.injEq] at hk
      obtain ⟨rfl, rfl⟩ := hk
      exact ha
  case getAlloc id key =>
    simp only [stepPc] at h
    cases h
    refine ⟨⟨hS.fconst, hS.inj, ?_⟩, ⟨by simp [linked], ?_, by simp, by simp, by simp, by simp⟩⟩
    · intro k a x hk hx hr
      have hlt := hc k a hk
      rw [List.getElem?_append_left hlt] at hx
      exact hS.done k a x hk hx hr
    · intro id' key' e he k hk
      simp only [Pc.getPublish.injEq] at he
      obtain ⟨_, _, rfl⟩ := he
      exact absurd (hc k _ hk) (Nat.lt_irrefl _)
  case getPublish id key e =>
    simp only [stepPc] at h
    cases h
    have hmiss : w.memo.cache key = none := hm key rfl
    have hun := hK.unpublished id key e rfl
    refine ⟨⟨hS.fconst, ?_, ?_⟩, ⟨?_, by simp, by simp, by simp, by simp, by simp⟩⟩
    · intro k k' a hk hk'
      by_cases h1 : k = key <;> by_cases h2 : k' = key
      · rw [h1, h2]
      · subst h1
        simp only [Function.update_same, Option.some.injEq] at hk
        simp only [Function.update, h2, dite_false] at hk'
        rw [← hk] at hk'
        exact absurd hk' (hun k')
      · subst h2
        simp only [Function.update_same, Option.some.injEq] at hk'
        simp only [Function.update, h1, dite_false] at hk
        rw [← hk'] at hk
        exact absurd hk (hun k)
      · simp only [Function.update, h1, dite_false] at hk
        simp only [Function.update, h2, dite_false] at hk'
        exact hS.inj k k' a hk hk'
    · intro k a x hk hx hr
      by_cases h1 : k = key
      · subst h1
        simp only [Function.update_same, Option.some.injEq] at hk
        subst hk
        have := ho e x rfl hx
        rw [hr] at this
        cases this
      · simp only [Function.update, h1, dite_false] at hk
        exact hS.done k a x hk hx hr
    · intro k e' hk
      simp only [linked, Option.some.injEq, Prod.mk.injEq] at hk
      obtain ⟨rfl, rfl⟩ := hk
      simp
  case getInvoker id key e =>
    simp only [stepPc] at h
    split at h
    · cases h
    · cases h
      refine ⟨⟨hS.fconst, hS.inj, hS.done⟩, ⟨?_, by simp, by simp, by simp, by simp, by simp⟩⟩
      intro k e' hk
      simp only [linked, Option.some.injEq, Prod.mk.injEq] at hk
      obtain ⟨rfl, rfl⟩ := hk
      exact hK.link _ _ rfl
  case getUnlockMiss key e =>
    simp only [stepPc] at h
    cases h
    refine ⟨⟨hS.fconst, hS.inj, hS.done⟩, ⟨?_, by simp, by simp, by simp, by simp, by simp⟩⟩
    intro k e' hk
    simp only [linked, Option.some.injEq, Prod.mk.injEq] at hk
    obtain ⟨rfl, rfl⟩ := hk
    exact hK.link _ _ rfl
  case getCall key e =>
    simp only [stepPc] at h
    cases h
    refine ⟨⟨hS.fconst, hS.inj, hS.done⟩, ⟨?_, by simp, ?_, by simp, by simp, by simp⟩⟩
    · intro k e' hk
      simp only [linked, Option.some.injEq, Prod.mk.injEq] at hk
      obtain ⟨rfl, rfl⟩ := hk
      exact hK.link _ _ rfl
    · intro k e' r hk
      simp only [Pc.getStore.injEq] at hk
      obtain ⟨rfl, _, rfl⟩ := hk
      rw [hS.fconst]
  case getStore key e r =>
    simp only [stepPc] at h
    split at h
    · cases h
    · rename_i old hold
      cases h
      have hopen := ho e old rfl hold
      refine ⟨⟨hS.fconst, hS.inj, ?_⟩, ⟨?_, by simp, by simp, ?_, by simp, by simp⟩⟩
      · intro k a x hk hx hr
        rcases getElem?_set_cases _ e a _ x hx with ⟨_, hxe⟩ | ⟨_, hxa⟩
        · rw [hxe] at hr
          simp only at hr
          rw [hopen] at hr
          cases hr
        · exact hS.done k a x hk hxa hr
      · intro k e' hk
        simp only [linked, Option.some.injEq, Prod.mk.injEq] at hk
        obtain ⟨rfl, rfl⟩ := hk
        exact hK.link _ _ rfl
      · intro k e' x hk hx
        simp only [Pc.getClose.injEq] at hk
        obtain ⟨rfl, rfl⟩ := hk
        rw [set_self_get _ _ _ _ hx]
        exact hK.computed _ _ _ rfl
  case getClose key e =>
    simp only [stepPc] at h
    split at h
    · cases h
    · rename_i old hold
      split at h
      · cases h
      · rename_i c hcl
        cases h
        have hlink := hK.link key e rfl
        have hres := hK.written key e old rfl hold
        refine ⟨⟨hS.fconst, hS.inj, ?_⟩, ⟨?_, by simp, by simp, by simp, ?_, by simp⟩⟩
        · intro k a x hk hx hr
          rcases getElem?_set_cases _ e a _ x hx with ⟨hae, hxe⟩ | ⟨_, hxa⟩
          · rw [hae] at hk
            have hkk := hS.inj k key e hk hlink
            rw [hxe, hkk]
            exact hres
          · exact hS.done k a x hk hxa hr
        · intro k e' hk
          simp only [linked, Option.some.injEq, Prod.mk.injEq] at hk
          obtain ⟨rfl, rfl⟩ := hk
          exact hlink
        · intro k e' x hk hx
          simp only [Pc.getReturn.injEq] at hk
          obtain ⟨rfl, rfl⟩ := hk
          rw [set_self_get _ _ _ _ hx]
          exact (closeChan_ok _ _ hcl).2
  case getReturn key e =>
    simp only [stepPc] at h
    split at h
    · cases h
    · rename_i old hold
      cases h
      refine ⟨hS, ⟨by simp [linked], by simp, by simp, by simp, by simp, ?_⟩⟩
      intro k r hk
      simp only [Pc.returned.injEq] at hk
      obtain ⟨rfl, rfl⟩ := hk
      exact hS.done _ e old (hK.link _ _ rfl) hold (hK.closed _ _ old rfl hold)
  case getUnlockHit key e =>
    simp only [stepPc] at h
    cases h
    refine ⟨⟨hS.fconst, hS.inj, hS.done⟩, ⟨?_, by simp, by simp, by simp, by simp, by simp⟩⟩
    intro k e' hk
    simp only [linked, Option.some.injEq, Prod.mk.injEq] at hk
    obtain ⟨rfl, rfl⟩ := hk
    exact hK.link _ _ rfl
  case getSelect key e =>
    simp only [stepPc] at h
    have hlink := hK.link key e rfl
    split at h
    · cases h
    · rename_i old hold
      split at h
      · rename_i hr hf
        split at h
        · cases h
          refine ⟨hS, ⟨by simp [linked], by simp, by simp, by simp, by simp, ?_⟩⟩
          intro k r hk
          simp only [Pc.returned.injEq] at hk
          obtain ⟨rfl, rfl⟩ := hk
          exact hS.done _ e old hlink hold hr
        · cases h
          exact ⟨hS, knows_plain f w _ rfl rfl (by simp)⟩
      · rename_i hr _
        cases h
        refine ⟨hS, ⟨by simp [linked], by simp, by simp, by simp, by simp, ?_⟩⟩
        intro k r hk
        simp only [Pc.returned.injEq] at hk
        obtain ⟨rfl, rfl⟩ := hk
        exact hS.done _ e old hlink hold hr
      · cases h
        exact ⟨hS, knows_plain f w _ rfl rfl (by simp)⟩
      · cases h
  case returned k r => simp [stepPc] at h
  case ccgEntry key id => simp [stepPc] at h
  case ccgSelect url id child =>
    simp only [stepPc] at h
    split at h
    · split at h
      · cases h
        exact ⟨hS, knows_plain f w _ rfl rfl (by simp)⟩
      · cases h
    · cases h
      exact ⟨hS, knows_plain f w _ rfl rfl (by simp)⟩
  case ccgLookup url id =>
    simp only [stepPc] at h
    split at h
    · cases h
      exact ⟨hS, knows_plain f w _ rfl rfl (by simp)⟩
    · cases h
      exact ⟨hS, ⟨by simp [linked], by simp, by simp, by simp, by simp, by simp⟩⟩
  case ccgReturned r => simp [stepPc] at h

theorem knows_other (f : Func V E) (ts : List (Pc V E)) (pick : Bool) (w w' : World V E)
    (hI : Inv w ts) (hO : Own w ts) (i j : Nat) (pc pc' q : Pc V E) (hi : ts[i]? = some pc)
    (hj : ts[j]? = some q) (hne : j ≠ i) (hK : Knows f w q)
    (h : stepPc ts pick w pc = StepOut.next pc' w') : Knows f w' q := by
  obtain ⟨_, _, _, _, _, _, f7, f8, _, _⟩ := stepPc_next_facts ts pick w w' pc pc' hI.failNil
    (hI.noDelete i pc hi) (hI.miss i pc hi) (hI.held i pc hi) h
  obtain ⟨_, _, _, _, g5, _⟩ := heap_facts_at w w' ts hI.failNil hO i pick pc pc' hi h
  refine ⟨?_, ?_, hK.computed, ?_, ?_, hK.returned⟩
  · intro key e hk
    exact f8 key e (hK.link key e hk)
  · intro id key e hq k
    rcases f7 with hc | hc
    · rw [hc]; exact hK.unpublished id key e hq k
    · exact absurd (hI.excl j i q pc hj hi (by rw [hq]; rfl) hc) hne
  · intro key e x hq hx
    have hown : own q = some e := by rw [hq]; rfl
    have hlt := hO.ptrOk j q e hj (own_ptr q e hown)
    rcases g5 e w.heap[e] (List.getElem?_eq_getElem hlt) with ho | hs
    · exact absurd (hO.ownDistinct j i q pc e hj hi hown ho) hne
    · rw [hs] at hx
      rw [← Option.some.inj hx]
      exact hK.written key e _ hq (List.getElem?_eq_getElem hlt)
  · intro key e x hq hx
    have hlt := hO.ptrOk j q e hj (by rw [hq]; rfl)
    have hcl := hK.closed key e _ hq (List.getElem?_eq_getElem hlt)
    rcases g5 e w.heap[e] (List.getElem?_eq_getElem hlt) with ho | hs
    · have := hO.ownOpen i pc e _ hi ho (List.getElem?_eq_getElem hlt)
      rw [hcl] at this
      cases this
    · rw [hs] at hx
      rw [← Option.some.inj hx]
      exact hcl

theorem stored_append_plain (f : Func V E) (w : World V E) (ts : List (Pc V E))
    (hT : Stored f w ts) (q : Pc V E) (hq : Knows f w q) : Stored f w (ts ++ [q]) := by
  refine ⟨hT.sound, ?_⟩
  intro j pc hj
  rcases getElem?_append_cases ts j q pc hj with ⟨_, d⟩ | ⟨_, h⟩
  · rw [d]; exact hq
  · exact hT.knows j pc h

theorem stored_set_plain (f : Func V E) (w : World V E) (ts : List (Pc V E))
    (hT : Stored f w ts) (i : Nat) (q : Pc V E) (hq : Knows f w q) :
    Stored f w (ts.set i q) := by
  refine ⟨hT.sound, ?_⟩
  intro j pc hj
  rcases getElem?_set_cases ts i j q pc hj with ⟨_, d⟩ | ⟨_, h⟩
  · rw [d]; exact hq
  · exact hT.knows j pc h

theorem stored_step (f : Func V E) (w w' : World V E) (ts : List (Pc V E)) (hI : Inv w ts)
    (hO : Own w ts) (hT : Stored f w ts) (i : Nat) (pick : Bool) (pc pc' : Pc V E)
    (hi : ts[i]? = some pc) (h : stepPc ts pick w pc = StepOut.next pc' w') :
    Stored f w' (ts.set i pc') := by
  obtain ⟨hS', hK'⟩ := stepPc_sound f ts pick w w' pc pc' hI.failNil hT.sound (hT.knows i pc hi)
    (fun e he => hO.ptrOk i pc e hi he) hO.cacheOk
    (fun e x he hx => hO.ownOpen i pc e x hi he hx) (hI.miss i pc hi) (hI.noDelete i pc hi) h
  refine ⟨hS', ?_⟩
  intro j q hq
  rcases getElem?_set_cases ts i j pc' q hq with ⟨_, d⟩ | ⟨hne, hj⟩
  · rw [d]; exact hK'
  · exact knows_other f ts pick w w' hI hO i j pc pc' q hi hj hne (hT.knows j q hj) h

theorem stored_next (f : Func V E) (s s' : Sys V E) (hG : Good s)
    (hT : Stored f s.world s.threads) (h : Next s s') : Stored f s'.world s'.threads := by
  obtain ⟨hI, hO⟩ := hG
  cases h with
  | callGet key _ =>
    exact stored_append_plain f _ _ hT _ (knows_plain f _ _ rfl rfl (by simp))
  | callCanCancelGet key id _ =>
    exact stored_append_plain f _ _ hT _ (knows_plain f _ _ rfl rfl (by simp))
  | step _ i pick hs =>
    unfold Sys.step at hs
    cases hc : s.crashed with
    | some p => simp [hc] at hs
    | none =>
      cases hi : s.threads[i]? with
      | none => simp [hc, hi] at hs
      | some pc =>
        cases hst : stepPc s.threads pick s.world pc with
        | next pc' w' =>
          simp only [hc, hi, hst, Option.some.injEq] at hs
          subst hs
          exact stored_step f _ _ _ hI hO hT i pick pc pc' hi hst
        | spawn pc' child w' =>
          simp only [hc, hi, hst, Option.some.injEq] at hs
          subst hs
          obtain ⟨rfl, ⟨key, id, rfl⟩, ⟨x, rfl⟩⟩ := stepPc_spawn _ _ _ _ _ _ _ hst
          exact stored_append_plain f _ _
            (stored_set_plain f _ _ hT i (Pc.ccgSelect key id s.threads.length)
              (knows_plain f _ _ rfl rfl (by simp)))
            (Pc.getEntry x) (knows_plain f _ _ rfl rfl (by simp))
        | panic p =>
          simp only [hc, hi, hst, Option.some.injEq] at hs
          subst hs
          exact hT
        | stuck => simp [hc, hi, hst] at hs

theorem stored_start (inv : Option (Str → Bool)) (f : Func V E) :
    Stored f (Sys.start inv f).world (Sys.start inv f).threads := by
  refine ⟨⟨rfl, ?_, ?_⟩, ?_⟩
  · intro k k' a hk; simp [Sys.start, start, New] at hk
  · intro k a x hk; simp [Sys.start, start, New] at hk
  · intro j pc hj; simp [Sys.start] at hj

theorem stored_reach (inv : Option (Str → Bool)) (f : Func V E) (s : Sys V E)
    (h : Reach (Sys.start inv f) s) : Stored f s.world s.threads := by
  have key : Good s ∧ Stored f s.world s.threads := by
    induction h with
    | refl => exact ⟨good_start inv f, stored_start inv f⟩
    | tail _ hn ih => exact ⟨good_next _ _ ih.1 hn, stored_next f _ _ ih.1 ih.2 hn⟩
  exact key.2

/-- Single-flight, the values: whatever `invoker` holds, in every state the
program reaches from `New(f)`, in any interleaving of any calls, a call of
`Get` that has returned has returned `f` of its key, and a completed entry
cached under a key holds `f` of that key. -/
theorem reach_returns (inv : Option (Str → Bool)) (f : Func V E) (s : Sys V E)
    (h : Reach (Sys.start inv f) s) :
    (∀ pc ∈ s.threads, ∀ k r, pc = Pc.returned k r → r = f k) ∧
      ∀ k a (x : entry V E), s.world.memo.cache k = some a → s.world.heap[a]? = some x →
        x.ready = Chan.closed → x.res = f k := by
  have hT := stored_reach inv f s h
  refine ⟨?_, hT.sound.done⟩
  intro pc hpc k r hk
  obtain ⟨j, hj⟩ := List.mem_iff_getElem?.1 hpc
  exact (hT.knows j pc hj).returned k r hk

/-! ## Reaching concrete states -/

theorem reach_run (s0 s : Sys V E) (sched : List (Nat × Bool)) (h : Reach s0 s) :
    Reach s0 (s.run sched) := by
  induction sched generalizing s with
  | nil => exact h
  | cons x rest ih =>
    obtain ⟨i, pick⟩ := x
    simp only [Sys.run]
    apply ih
    cases hs : s.step i pick with
    | none => simpa using h
    | some s' => exact Relation.ReflTransGen.tail h (Next.step s s' i pick hs)

theorem reach_callGet (s0 s : Sys V E) (key : Str) (h : Reach s0 s) (hc : s.crashed = none) :
    Reach s0 (s.call (Pc.getEntry key)) :=
  Relation.ReflTransGen.tail h (Next.callGet s key hc)

theorem reach_callCanCancelGet (s0 s : Sys V E) (key id : Str) (h : Reach s0 s)
    (hc : s.crashed = none) : Reach s0 (s.call (Pc.ccgEntry key id)) :=
  Relation.ReflTransGen.tail h (Next.callCanCancelGet s key id hc)

theorem reach_demoCrash : Reach (Sys.boot f0) demoCrash :=
  reach_run _ _ _ (reach_callGet _ _ _ Relation.ReflTransGen.refl rfl)

theorem reach_demoDone : Reach (Sys.start emptyInvoker fErr) demoDone :=
  reach_run _ _ _ (reach_callGet _ _ _ Relation.ReflTransGen.refl rfl)

theorem reach_demoCancelFresh : Reach (Sys.boot f0) demoCancelFresh :=
  reach_run _ _ _ (reach_callCanCancelGet _ _ _ _ Relation.ReflTransGen.refl rfl)

theorem reach_demoCancel : Reach demoDone demoCancel :=
  reach_run _ _ _ (reach_callCanCancelGet _ _ _ _ Relation.ReflTransGen.refl (by decide))

theorem reach_demoWaiter : Reach (Sys.start emptyInvoker f0) demoWaiter :=
  reach_run _ _ _ (reach_callGet _ _ _ (reach_callGet _ _ _ Relation.ReflTransGen.refl rfl) rfl)

/-! ## The retry of line 101 -/

/-- The retry of line 101 is never taken: in every state the program reaches
from `New(f)`, whatever `invoker` holds, the `select` of line 97 never goes
on to `memo.Get(key)`, since no entry has a closed `fail` channel. -/
theorem waiter_never_retries (inv : Option (Str → Bool)) (f : Func V E) (s : Sys V E)
    (h : Reach (Sys.start inv f) s) (ts : List (Pc V E)) (p : Bool) (key key' : Str) (e : Nat)
    (w' : World V E) :
    stepPc ts p s.world (Pc.getSelect key e) ≠ StepOut.next (Pc.getEntry key') w' := by
  have hI := inv_reach _ _ (inv_start inv f) h
  intro hst
  simp only [stepPc] at hst
  cases he : s.world.heap[e]? with
  | none => simp [he] at hst
  | some old =>
    have hf : old.fail = Chan.nil := failNil_get _ e old hI.failNil he
    cases hr : old.ready <;> simp [he, hr, hf] at hst

/-- A waiter that is really there: in `demoWaiter` the second call is at the
`select` of line 97 on the entry of `"k"`, and it waits. -/
theorem waiter_waits :
    demoWaiter.threads[1]? = some (Pc.getSelect "k".toList 0) ∧
      demoWaiter.world.memo.cache "k".toList = some 0 ∧
      stepPc demoWaiter.threads true demoWaiter.world (Pc.getSelect "k".toList 0) =
        StepOut.stuck :=
  ⟨rfl, by decide, rfl⟩

/-! ## The claims -/

/-- C1 (single-flight), on the code as written. Nothing in memo.go makes the
map `invoker`, so from `New(f)`, in every interleaving of any calls of `Get`
and `CanCancelGet`, `f` is never called and no call of `Get` ever returns:
the first goroutine to reach line 86 panics. -/
theorem singleFlight_never_computes (f : Func V E) (s : Sys V E)
    (h : Reach (Sys.boot f) s) :
    s.world.calls = [] ∧ ∀ pc ∈ s.threads, ∀ k r, pc ≠ Pc.returned k r := by
  obtain ⟨⟨_, hcalls, _⟩, hts⟩ := fresh_reach f s h
  refine ⟨hcalls, ?_⟩
  intro pc hpc k r hr
  have := hts pc hpc
  rw [hr] at this
  cases this

/-- C1 at one call `Get("id::k")` on `New(f0)`: the program is reachable, it
has panicked at line 86, `f0` was not called and the call has not returned. -/
theorem singleFlight_never_computes_witness :
    Reach (Sys.boot f0) demoCrash ∧ demoCrash.crashed = some Panic.nilMapAssign ∧
      (demoCrash.world.calls = [] ∧ ∀ pc ∈ demoCrash.threads, ∀ k r, pc ≠ Pc.returned k r) :=
  ⟨reach_demoCrash, by decide, singleFlight_never_computes f0 demoCrash reach_demoCrash⟩

/-- C2 (Get on a miss), on the code as written. For every `f`, every
identifier `id` without a colon and every key `k` without `"::"`, the call
`Get(id + "::" + k)` on the cache just built by `New(f)` panics at line 86
(assignment to an entry of the nil map `invoker`): `f` is not called, the
entry published under `k` has its `ready` channel still open, and the mutex
stays held. -/
theorem Get_miss_after_New_panics (f : Func V E) (fuel : Nat) (pick : Bool) (id k : Str)
    (hid : ':' ∉ id) (hk : hasSep k = false) :
    Get (fuel + 1) pick (boot f) (strings_Join id k) =
      (Outcome.panic Panic.nilMapAssign,
        { invoker := none
          heap := [{ res := nilResult, ready := Chan.opened, fail := Chan.nil }]
          memo := { f := f, mu := true, cache := Function.update (fun _ => none) k (some 0) }
          calls := [] }) := by
  exact Get_miss_nilInvoker fuel pick (boot f) _ id k []
    (strings_Split_Join_noSep id k hid hk) rfl rfl rfl

/-- C2 at `Get("id::k")` on `New(f0)`. -/
theorem Get_miss_after_New_panics_witness :
    Get 1 true (boot f0) (strings_Join "id".toList "k".toList) =
      (Outcome.panic Panic.nilMapAssign,
        { invoker := none
          heap := [{ res := nilResult, ready := Chan.opened, fail := Chan.nil }]
          memo := { f := f0, mu := true,
                    cache := Function.update (fun _ => none) "k".toList (some 0) }
          calls := [] }) :=
  Get_miss_after_New_panics f0 0 true "id".toList "k".toList (by decide) (by decide)

/-- C3 (cache persistence and error passthrough). In every world where the
mutex is free and the key `k` has a completed entry `e` (its `ready` channel
closed, its `fail` channel not closed), a call of `Get` whose argument splits
into an identifier and `k` returns exactly the stored pair `e.res`, whatever
it is, and leaves the whole world as it was: `f` is not called and the cache
is unchanged. -/
theorem Get_completed_returns_stored (fuel : Nat) (pick : Bool) (w : World V E)
    (s id k : Str) (rest : List Str) (a : Nat) (e : entry V E)
    (hs : strings_Split s = id :: k :: rest) (hmu : w.memo.mu = false)
    (hc : w.memo.cache k = some a) (he : w.heap[a]? = some e)
    (hr : e.ready = Chan.closed) (hf : e.fail ≠ Chan.closed) :
    Get (fuel + 1) pick w s = (Outcome.ret e.res, w) ∧
      (Get (fuel + 1) pick w s).2.calls = w.calls ∧
      (Get (fuel + 1) pick w s).2.memo.cache = w.memo.cache := by
  have h := Get_hit_ready fuel pick w s id k rest a e hs hmu hc he hr hf
  rw [h]
  exact ⟨rfl, rfl, rfl⟩

/-- C3 on the world left by a first `Get("id::k")` whose computation failed
with `(nil, err)`: a second call returns `(nil, err)` again and `fErr` has
still been called once. -/
theorem Get_completed_returns_stored_witness :
    wDone.calls = ["k".toList] ∧
      (Get 1 true wDone "other::k".toList = (Outcome.ret { value := none, err := some 1 }, wDone) ∧
        (Get 1 true wDone "other::k".toList).2.calls = wDone.calls ∧
        (Get 1 true wDone "other::k".toList).2.memo.cache = wDone.memo.cache) :=
  ⟨by decide,
    Get_completed_returns_stored 0 true wDone "other::k".toList "other".toList "k".toList []
      0 eDone (by decide) (by decide) (by decide) (by decide) rfl (by decide)⟩

/-- C4 (Get on plain keys), on the code as written. For every world and every
key without `"::"`, `Get(key)` panics at line 76: `strings.Split` gives one
piece and `arr[1]` is out of range. The world is left as it was. -/
theorem Get_plain_key_panics (fuel : Nat) (pick : Bool) (w : World V E) (key : Str)
    (h : hasSep key = false) :
    Get (fuel + 1) pick w key = (Outcome.panic Panic.indexOutOfRange, w) ∧
      ∀ ts p, stepPc ts p w (Pc.getEntry key) = StepOut.panic Panic.indexOutOfRange := by
  refine ⟨Get_noSep fuel pick w key h, ?_⟩
  intro ts p
  simp [stepPc, strings_Split_of_noSep key h]

/-- C4 at `Get("a")` on `New(f0)`. -/
theorem Get_plain_key_panics_witness :
    Get 1 true (boot f0) "a".toList = (Outcome.panic Panic.indexOutOfRange, boot f0) ∧
      ∀ ts p, stepPc ts p (boot f0) (Pc.getEntry "a".toList) =
        StepOut.panic Panic.indexOutOfRange :=
  Get_plain_key_panics 0 true (boot f0) "a".toList (by decide)

/-- C5 (cancel with an entry present), on the code as written. In every state
the program reaches from `New(f)`, whatever `invoker` holds, when the cache
has an entry for `url` the cancel branch of `CanCancelGet` panics at line 64,
`close(e.fail)` on a nil channel, and so neither removes the entry nor
returns. -/
theorem cancel_with_entry_panics (inv : Option (Str → Bool)) (f : Func V E) (s : Sys V E)
    (h : Reach (Sys.start inv f) s) (url id : Str) (a : Nat)
    (hc : s.world.memo.cache url = some a) :
    cancelBranch s.world url id = (Outcome.panic Panic.closeNilChan, s.world) ∧
      ∀ ts p, stepPc ts p s.world (Pc.ccgClose url id a) = StepOut.panic Panic.closeNilChan := by
  have hG := good_reach _ _ (good_start inv f) h
  have hlt := hG.2.cacheOk url a hc
  have he : s.world.heap[a]? = some s.world.heap[a] := List.getElem?_eq_getElem hlt
  have hf : s.world.heap[a].fail = Chan.nil := failNil_get _ a _ hG.1.failNil he
  constructor
  · simp [cancelBranch, hc, he, hf, closeChan]
  · intro ts p
    simp [stepPc, he, hf, closeChan]

/-- C5 on `New(f0)` and one call `CanCancelGet("k", done)` whose `done`
arrives when its goroutine has published the entry of `"k"` at line 84: the
cancel branch finds the entry and panics, and running it on from there ends
the program with that panic. -/
theorem cancel_with_entry_panics_witness :
    Reach (Sys.boot f0) demoCancelFresh ∧
      demoCancelFresh.world.memo.cache "k".toList = some 0 ∧
      (demoCancelFresh.run [(0, false), (0, false), (0, false)]).crashed =
        some Panic.closeNilChan ∧
      (cancelBranch demoCancelFresh.world "k".toList uuid0 =
          (Outcome.panic Panic.closeNilChan, demoCancelFresh.world) ∧
        ∀ ts p, stepPc ts p demoCancelFresh.world (Pc.ccgClose "k".toList uuid0 0) =
          StepOut.panic Panic.closeNilChan) :=
  ⟨reach_demoCancelFresh, by decide, by decide,
    cancel_with_entry_panics none f0 demoCancelFresh reach_demoCancelFresh "k".toList uuid0 0
      (by decide)⟩

/-- C6 (cancel without an entry is a no-op). In every world whose cache has
no entry for `url`, the cancel branch of `CanCancelGet` returns `(nil, nil)`
and leaves the whole world, the cache included, as it was; so does the call
of `CanCancelGet` whose `done` arrives before the goroutine of line 49 has
run. -/
theorem cancel_without_entry_noop (w : World V E) (url id : Str)
    (h : w.memo.cache url = none) :
    cancelBranch w url id = (Outcome.ret nilResult, w) ∧
      (∀ fuel pick, CanCancelGet fuel pick Race.doneBeforeGet w url id =
        (Outcome.ret nilResult, w)) ∧
      ∀ ts p, stepPc ts p w (Pc.ccgLookup url id) = StepOut.next (Pc.ccgReturned nilResult) w := by
  have h1 : cancelBranch w url id = (Outcome.ret nilResult, w) := by
    simp [cancelBranch, h]
  refine ⟨h1, ?_, ?_⟩
  · intro fuel pick
    simp [CanCancelGet, h1]
  · intro ts p
    simp [stepPc, h]

/-- C6 on the world left by `Get("id::k")`, for the key `"other"`. -/
theorem cancel_without_entry_noop_witness :
    wDone.memo.cache "other".toList = none ∧
      (cancelBranch wDone "other".toList uuid0 = (Outcome.ret nilResult, wDone) ∧
        (∀ fuel pick, CanCancelGet fuel pick Race.doneBeforeGet wDone "other".toList uuid0 =
          (Outcome.ret nilResult, wDone)) ∧
        ∀ ts p, stepPc ts p wDone (Pc.ccgLookup "other".toList uuid0) =
          StepOut.next (Pc.ccgReturned nilResult) wDone) :=
  ⟨by decide, cancel_without_entry_noop wDone "other".toList uuid0 (by decide)⟩

/-- C8 (terminal-signal invariant). In every state the program reaches from
`New(f)` by calls of `Get` and `CanCancelGet` in any interleaving, whatever
`invoker` holds, every entry ever allocated has a nil `fail` channel; so no
entry has both its `ready` and its `fail` channel closed. -/
theorem entry_signals_never_both (inv : Option (Str → Bool)) (f : Func V E) (s : Sys V E)
    (h : Reach (Sys.start inv f) s) (a : Nat) (e : entry V E)
    (he : s.world.heap[a]? = some e) :
    e.fail = Chan.nil ∧ ¬ (e.ready = Chan.closed ∧ e.fail = Chan.closed) := by
  have hI := inv_reach _ _ (inv_start inv f) h
  have hf : e.fail = Chan.nil := failNil_get _ a e hI.failNil he
  refine ⟨hf, ?_⟩
  rintro ⟨_, h2⟩
  rw [hf] at h2
  cases h2

/-- C8 on the program in which `Get("id::k")` has returned. -/
theorem entry_signals_never_both_witness :
    Reach (Sys.start emptyInvoker fErr) demoDone ∧ demoDone.world.heap[0]? = some eDone ∧
      (eDone.fail = Chan.nil ∧ ¬ (eDone.ready = Chan.closed ∧ eDone.fail = Chan.closed)) :=
  ⟨reach_demoDone, by decide,
    entry_signals_never_both emptyInvoker fErr demoDone reach_demoDone 0 eDone (by decide)⟩

/-- C9 (completed entries are never removed). Let `s` be a state the program
reaches from `New(f)`, whatever `invoker` holds, in which the key `k` has the
entry at address `a` and that entry is completed. In every state reached
from `s` by further calls and statements of `Get` and `CanCancelGet`, in any
interleaving, `k` still has the entry at `a`, and that entry is unchanged. -/
theorem completed_entry_stays (inv : Option (Str → Bool)) (f : Func V E) (s s' : Sys V E)
    (h : Reach (Sys.start inv f) s) (h' : Reach s s') (k : Str) (a : Nat) (e : entry V E)
    (hc : s.world.memo.cache k = some a) (he : s.world.heap[a]? = some e)
    (hr : e.ready = Chan.closed) :
    s'.world.memo.cache k = some a ∧ s'.world.heap[a]? = some e :=
  reach_frozen s s' (good_reach _ _ (good_start inv f) h) h' k a e hc he hr

/-- C9 on the program in which `Get("id::k")` has returned and a later
`CanCancelGet("k", done)` was cancelled: that call panicked and the entry of
`"k"` is where and what it was. -/
theorem completed_entry_stays_witness :
    Reach (Sys.start emptyInvoker fErr) demoDone ∧ Reach demoDone demoCancel ∧
      demoCancel.crashed = some Panic.closeNilChan ∧
      (demoCancel.world.memo.cache "k".toList = some 0 ∧
        demoCancel.world.heap[0]? = some eDone) :=
  ⟨reach_demoDone, reach_demoCancel, by decide,
    completed_entry_stays emptyInvoker fErr demoDone demoCancel reach_demoDone reach_demoCancel
      "k".toList 0 eDone (by decide) (by decide) rfl⟩

/-- C10 (key tagging round trip), on the code as written, at the key
`"http://[::1]/"`. The tagged string splits into three pieces, so `Get`
stores its entry under `"http://["`, not under the key; the cancel branch
looks the key up, finds nothing and leaves that entry in the cache. -/
theorem tagged_key_with_sep_not_recovered :
    strings_Split (strings_Join uuid0 url0) = [uuid0, "http://[".toList, "1]/".toList] ∧
      (Get 1 true (start emptyInvoker f0) (strings_Join uuid0 url0)).2.memo.cache
        "http://[".toList = some 0 ∧
      (Get 1 true (start emptyInvoker f0) (strings_Join uuid0 url0)).2.memo.cache url0 = none ∧
      (CanCancelGet 1 true Race.doneAfterGet (start emptyInvoker f0) url0 uuid0).1 =
        Outcome.ret nilResult ∧
      (CanCancelGet 1 true Race.doneAfterGet (start emptyInvoker f0) url0 uuid0).2.memo.cache
        "http://[".toList = some 0 := by
  refine ⟨by decide, by decide, by decide, by decide, by decide⟩

end GoMemo
